import Mathlib

/-!
Verification development for the chess engine (src/game.rs, src/game/board.rs,
src/game/board/position.rs, src/game/castling.rs, src/game/piece.rs, src/ai.rs).

Shallow embedding conventions:
* Rust `u8`/`usize` values become `Nat`; `i8` becomes `Int` (the i8 comparisons used
  by the code coincide with integer comparisons; the material sums stay far below the
  i8 range on every board with at most 32 pieces, so no wrapping is modelled).
* `Board([Option<Piece>; 64])` becomes a 64-element `List (Option Piece)`; the
  indices used by the program are always < 64.
* Rust panics (`expect`, out-of-bounds indexing, failing `debug_assert!` in debug
  builds) are programming errors per the design (spec section 7); at each such point the
  model returns an explicitly marked junk value (usually the unchanged state, an
  empty list or `none`).  Release builds compile `debug_assert!` away, so the
  model otherwise follows release semantics.
* `cfg!(debug_assertions)` in `Game::moves` is modelled by an explicit `dbg : Bool`
  parameter threaded through `Game.moves` and the search.
-/

/-- `PieceType` from src/game/piece.rs. -/
inductive PieceType where
  | Pawn
  | Knight
  | Bishop
  | Rook
  | Queen
  | King
deriving DecidableEq, Repr

/-- `PieceColor` from src/game/piece.rs. -/
inductive PieceColor where
  | White
  | Black
deriving DecidableEq, Repr

namespace PieceColor

/-- `impl Not for PieceColor` (unary negation toggles the color). -/
def not : PieceColor → PieceColor
  | White => Black
  | Black => White

/-- `PieceColor::pawn_starting_rank`. -/
def pawn_starting_rank : PieceColor → Nat
  | White => 1
  | Black => 6

/-- `PieceColor::piece_starting_rank`. -/
def piece_starting_rank : PieceColor → Nat
  | White => 0
  | Black => 7

end PieceColor

/-- `Piece` from src/game/piece.rs. -/
structure Piece where
  color : PieceColor
  piece : PieceType
deriving DecidableEq, Repr

/-- `Position(u8)` from src/game/board/position.rs: a square index `rank << 3 | file`. -/
structure Position where
  val : Nat
deriving DecidableEq, Repr

namespace Position

/-- `Position::new` (`rank << 3 | file`; for `file < 8` this equals `rank * 8 + file`).
The source `debug_assert!`s `rank < 8 && file < 8`; the model is total. -/
def new (rank file : Nat) : Position :=
  ⟨rank * 8 + file⟩

/-- `Position::rank` (`self.0 >> 3`, i.e. division by 8). -/
def rank (p : Position) : Nat :=
  p.val / 8

/-- `Position::file` (`self.0 & 0b111`, i.e. remainder mod 8). -/
def file (p : Position) : Nat :=
  p.val % 8

/-- `Movement::up` for `Position`. -/
def up (p : Position) : Option Position :=
  if p.rank < 7 then some ⟨p.val + 8⟩ else none

/-- `Movement::down` for `Position`. -/
def down (p : Position) : Option Position :=
  if 0 < p.rank then some ⟨p.val - 8⟩ else none

/-- `Movement::left` for `Position`. -/
def left (p : Position) : Option Position :=
  if 0 < p.file then some ⟨p.val - 1⟩ else none

/-- `Movement::right` for `Position`. -/
def right (p : Position) : Option Position :=
  if p.file < 7 then some ⟨p.val + 1⟩ else none

/-- `Movement::pawn` for `Position` (one step in the color's forward direction). -/
def pawn (p : Position) (color : PieceColor) : Option Position :=
  match color with
  | PieceColor.White => p.up
  | PieceColor.Black => p.down

end Position

/-- `Movement::up` lifted to `Option<Position>` (src/game/board/position.rs). -/
def oup (p : Option Position) : Option Position :=
  p.bind Position.up

/-- `Movement::down` lifted to `Option<Position>`. -/
def odown (p : Option Position) : Option Position :=
  p.bind Position.down

/-- `Movement::left` lifted to `Option<Position>`. -/
def oleft (p : Option Position) : Option Position :=
  p.bind Position.left

/-- `Movement::right` lifted to `Option<Position>`. -/
def oright (p : Option Position) : Option Position :=
  p.bind Position.right

/-- `Board([Option<Piece>; 64])` from src/game/board.rs, as a list of 64
squares indexed by `Position.val`.  All indices the program uses are below 64
(an out-of-range index panics in the source; `List.set`/`List.getD` make the
model total there). -/
def Board : Type :=
  List (Option Piece)

namespace Board

/-- Write one square (the `IndexMut` assignment `board[position] = value`). -/
def update (b : Board) (p : Position) (v : Option Piece) : Board :=
  b.set p.val v

/-- `Board::get`. -/
def get (b : Board) (p : Position) : Option Piece :=
  b.getD p.val none

/-- `Board::is_vacant`. -/
def is_vacant (b : Board) (p : Position) : Bool :=
  (b.get p).isNone

/-- The `PIECE_TYPES` back-rank array from `Board::new`. -/
def pieceTypes : List PieceType :=
  [PieceType.Rook, PieceType.Knight, PieceType.Bishop, PieceType.Queen,
   PieceType.King, PieceType.Bishop, PieceType.Knight, PieceType.Rook]

/-- `Board::new`: the standard starting arrangement, built by the same four loops
as the source. -/
def new : Board :=
  let empty : Board := List.replicate 64 none
  let blackBack := (List.range 8).foldl
    (fun (b : Board) file =>
      b.update (Position.new 7 file)
        ((pieceTypes.get? file).map (fun pt => ⟨PieceColor.Black, pt⟩)))
    empty
  let blackPawns := (List.range 8).foldl
    (fun (b : Board) file =>
      b.update (Position.new 6 file) (some ⟨PieceColor.Black, PieceType.Pawn⟩))
    blackBack
  let whitePawns := (List.range 8).foldl
    (fun (b : Board) file =>
      b.update (Position.new 1 file) (some ⟨PieceColor.White, PieceType.Pawn⟩))
    blackPawns
  (List.range 8).foldl
    (fun (b : Board) file =>
      b.update (Position.new 0 file)
        ((pieceTypes.get? file).map (fun pt => ⟨PieceColor.White, pt⟩)))
    whitePawns

/-- `Board::iter(color)`: the pieces of `color` with their positions, in ascending
index order (the `enumerate` order of the source). -/
def iter (b : Board) (color : PieceColor) : List (Position × Piece) :=
  (List.range 64).filterMap (fun i =>
    match b.get ⟨i⟩ with
    | some pc => if pc.color = color then some (⟨i⟩, pc) else none
    | none => none)

/-- `Board::position_of`: the first square holding exactly `piece`. -/
def position_of (b : Board) (piece : Piece) : Option Position :=
  ((List.range 64).find? (fun i => b.get ⟨i⟩ = some piece)).map (fun i => ⟨i⟩)

/-- `Board::r#move` from src/game/board.rs.  The source `expect`s a piece at
`from`; on the panic path the model returns the board unchanged.  The two
`debug_assert_eq!` in the en-passant and castling branches are compiled away in
release builds and are not modelled.  When the castling branch's rook squares
fall off the board the source panics (`expect("Board::move castling
precondition")`); the model then leaves the rook untouched. -/
def move (b : Board) (from_ to_ : Position) : Board :=
  match b.get from_ with
  | none => b
  | some piece =>
    let b1 := b.update from_ none
    let captured := b1.get to_
    let b2 := b1.update to_ (some piece)
    let b3 :=
      if piece.piece = PieceType.Pawn ∧ from_.file ≠ to_.file ∧ captured = none then
        b2.update (Position.new from_.rank to_.file) none
      else
        b2
    if piece.piece = PieceType.King ∧ Nat.dist from_.file to_.file = 2 then
      let pair : Option (Position × Position) :=
        if to_.file < from_.file then
          match oleft (to_.left), to_.right with
          | some rf, some rt => some (rf, rt)
          | _, _ => none
        else
          match to_.right, to_.left with
          | some rf, some rt => some (rf, rt)
          | _, _ => none
      match pair with
      | some (rook_from, rook_to) =>
        let rook := b3.get rook_from
        (b3.update rook_from none).update rook_to rook
      | none => b3
    else
      b3

/-- `Board::promote`.  The source `expect`s a piece at `from` (and
`debug_assert`s it is a pawn); on the panic path the model returns the board
unchanged. -/
def promote (b : Board) (from_ to_ : Position) (piece_type : PieceType) : Board :=
  match b.get from_ with
  | none => b
  | some piece =>
    (b.update from_ none).update to_ (some ⟨piece.color, piece_type⟩)

end Board

/-- `CastlingInfo` from src/game/castling.rs. -/
inductive CastlingInfo where
  | KingHasNotMoved (queenside_rook_has_not_moved kingside_rook_has_not_moved : Bool)
  | KingHasMoved
deriving DecidableEq, Repr

namespace CastlingInfo

/-- `CastlingInfo::new`. -/
def new : CastlingInfo :=
  KingHasNotMoved true true

/-- `CastlingInfo::move_king` (the `&mut self` update, as a function). -/
def move_king (_ : CastlingInfo) : CastlingInfo :=
  KingHasMoved

/-- `CastlingInfo::move_queenside_rook`. -/
def move_queenside_rook : CastlingInfo → CastlingInfo
  | KingHasNotMoved _ k => KingHasNotMoved false k
  | KingHasMoved => KingHasMoved

/-- `CastlingInfo::move_kingside_rook`. -/
def move_kingside_rook : CastlingInfo → CastlingInfo
  | KingHasNotMoved q _ => KingHasNotMoved q false
  | KingHasMoved => KingHasMoved

/-- `CastlingInfo::can_castle_queenside`. -/
def can_castle_queenside : CastlingInfo → Bool
  | KingHasNotMoved q _ => q
  | KingHasMoved => false

/-- `CastlingInfo::can_castle_kingside`. -/
def can_castle_kingside : CastlingInfo → Bool
  | KingHasNotMoved _ k => k
  | KingHasMoved => false

end CastlingInfo

/-- `Castling` from src/game/castling.rs: one `CastlingInfo` per color. -/
structure Castling where
  white : CastlingInfo
  black : CastlingInfo
deriving DecidableEq, Repr

namespace Castling

/-- `Castling::new`. -/
def new : Castling :=
  ⟨CastlingInfo.new, CastlingInfo.new⟩

/-- The `Index<PieceColor>` impl. -/
def get (c : Castling) : PieceColor → CastlingInfo
  | PieceColor.White => c.white
  | PieceColor.Black => c.black

/-- The `IndexMut<PieceColor>` impl: replace one color's entry. -/
def set (c : Castling) (color : PieceColor) (v : CastlingInfo) : Castling :=
  match color with
  | PieceColor.White => ⟨v, c.black⟩
  | PieceColor.Black => ⟨c.white, v⟩

end Castling

/-- `Outcome` from src/game.rs. -/
inductive Outcome where
  | Win (color : PieceColor)
  | Draw
deriving DecidableEq, Repr

/-- The `PROMOTIONS` constant from src/game.rs, in source order. -/
def PROMOTIONS : List PieceType :=
  [PieceType.Queen, PieceType.Rook, PieceType.Bishop, PieceType.Knight]

/-- `Game` from src/game.rs. -/
structure Game where
  turn : PieceColor
  board : Board
  just_advanced_two : Option Position
  castling : Castling

namespace Game

/-- `Game::new`. -/
def new : Game :=
  { turn := PieceColor.White
    board := Board.new
    just_advanced_two := none
    castling := Castling.new }

/-- `Game::get`. -/
def get (g : Game) (position : Position) : Option Piece :=
  g.board.get position

/-- The loop body of `Game::sliding_attacks`: step `(d_rank, d_file)` from the
current square until `target` is reached (attack) or an occupied square blocks
(no attack).  Under the alignment guards of each caller the loop reaches
`target` within at most 8 iterations while staying on the board; `fuel = 8`
therefore reproduces the source exactly on all calls the program makes (an
off-board walk would make the source panic on the array index; the model then
reports no attack). -/
def slidingAttacksAux (b : Board) (target : Position) (dr df : Int) :
    Nat → Int → Int → Bool
  | 0, _, _ => false
  | fuel + 1, r, f =>
    let r' := r + dr
    let f' := f + df
    if r' = (target.rank : Int) ∧ f' = (target.file : Int) then
      true
    else if 0 ≤ r' ∧ r' < 8 ∧ 0 ≤ f' ∧ f' < 8 then
      if b.is_vacant (Position.new r'.toNat f'.toNat) then
        slidingAttacksAux b target dr df fuel r' f'
      else
        false
    else
      false

/-- `Game::sliding_attacks`: `d_rank`/`d_file` are the signs of the rank/file
differences toward `target` (`Ordering as i8`), fixed before the loop. -/
def sliding_attacks (g : Game) (position target : Position) : Bool :=
  let dr : Int :=
    if position.rank < target.rank then 1 else if target.rank < position.rank then -1 else 0
  let df : Int :=
    if position.file < target.file then 1 else if target.file < position.file then -1 else 0
  slidingAttacksAux g.board target dr df 8 (position.rank : Int) (position.file : Int)

/-- `Game::attacks`: does any piece of `color` cover `target` with its raw
movement shape?  For an attacking pawn the source `expect`s that it is not on
its last rank; on that panic path the model reports no attack. -/
def attacks (g : Game) (color : PieceColor) (target : Position) : Bool :=
  (g.board.iter color).any (fun (pp : Position × Piece) =>
    let position := pp.1
    let piece := pp.2
    match piece.piece with
    | PieceType.Pawn =>
      match position.pawn color with
      | some pawn_move =>
        decide (pawn_move.rank = target.rank) &&
          decide (Nat.dist pawn_move.file target.file = 1)
      | none => false
    | PieceType.Knight =>
      decide (Nat.dist position.rank target.rank = 1 ∧ Nat.dist position.file target.file = 2) ||
      decide (Nat.dist position.rank target.rank = 2 ∧ Nat.dist position.file target.file = 1)
    | PieceType.Bishop =>
      decide (Nat.dist position.rank target.rank = Nat.dist position.file target.file) &&
        g.sliding_attacks position target
    | PieceType.Rook =>
      decide (position.rank = target.rank ∨ position.file = target.file) &&
        g.sliding_attacks position target
    | PieceType.Queen =>
      (decide (Nat.dist position.rank target.rank = Nat.dist position.file target.file) ||
       decide (position.rank = target.rank ∨ position.file = target.file)) &&
        g.sliding_attacks position target
    | PieceType.King =>
      decide (Nat.dist position.rank target.rank ≤ 1) &&
        decide (Nat.dist position.file target.file ≤ 1))

/-- `Game::is_promotion`. -/
def is_promotion (g : Game) (from_ to_ : Position) : Bool :=
  match g.board.get from_ with
  | some ⟨PieceColor.White, PieceType.Pawn⟩ => decide (to_.rank = 7)
  | some ⟨PieceColor.Black, PieceType.Pawn⟩ => decide (to_.rank = 0)
  | _ => false

/-- `Game::r#move` from src/game.rs.  `REQUIRES: there is a piece at from`;
on the panic path (no piece at `from`) the model returns the game unchanged.
The `debug_assert!(!self.is_promotion(..))` is compiled away in release. -/
def move (g : Game) (from_ to_ : Position) : Game :=
  match g.board.get from_ with
  | none => g
  | some piece =>
    let turn := g.turn.not
    let board := g.board.move from_ to_
    let just_advanced_two :=
      if piece.piece = PieceType.Pawn ∧ Nat.dist from_.rank to_.rank = 2 then
        some to_
      else
        none
    let castling :=
      if from_.rank = piece.color.piece_starting_rank then
        match piece.piece, from_.file with
        | PieceType.King, 4 =>
          g.castling.set piece.color ((g.castling.get piece.color).move_king)
        | PieceType.Rook, 0 =>
          g.castling.set piece.color ((g.castling.get piece.color).move_queenside_rook)
        | PieceType.Rook, 7 =>
          g.castling.set piece.color ((g.castling.get piece.color).move_kingside_rook)
        | _, _ => g.castling
      else
        g.castling
    { turn := turn
      board := board
      just_advanced_two := just_advanced_two
      castling := castling }

/-- `Game::promote`.  `REQUIRES: there is a pawn at from and move is a
promotion`; on the panic path (no piece at `from`) the model returns the game
unchanged.  The two `debug_assert!`s are compiled away in release. -/
def promote (g : Game) (from_ to_ : Position) (piece_type : PieceType) : Game :=
  match g.board.get from_ with
  | none => g
  | some _ =>
    { turn := g.turn.not
      board := g.board.promote from_ to_ piece_type
      just_advanced_two := none
      castling := g.castling }

/-- The successor position built by the `does_not_cause_check` closure in
`Game::moves` for a non-king piece: `cfg!(debug_assertions)` (the `dbg`
parameter) decides whether a promotion candidate is simulated by
`promote(from, to, Queen)` or by `r#move(from, to)`. -/
def checkFilterSuccessor (dbg : Bool) (g : Game) (from_ to_ : Position) : Game :=
  if dbg ∧ g.is_promotion from_ to_ then
    g.promote from_ to_ PieceType.Queen
  else
    g.move from_ to_

/-- The `does_not_cause_check` closure of `Game::moves` (non-king branch). -/
def does_not_cause_check (dbg : Bool) (g : Game) (king_position : Position)
    (color : PieceColor) (from_ to_ : Position) : Bool :=
  !(checkFilterSuccessor dbg g from_ to_).attacks color.not king_position

/-- The `saturate` walk of `Game::moves`: follow direction `f` from `from`,
keeping empty squares (that pass the check filter) and stopping at the first
occupied square (kept only if it holds an enemy and passes the filter).  At
most 7 steps are possible on the 8-wide board, so `fuel = 8` reproduces the
source loop. -/
def saturateAux (dbg : Bool) (g : Game) (king_position : Position)
    (color : PieceColor) (from_ : Position) (f : Position → Option Position) :
    Nat → Option Position → List Position
  | 0, _ => []
  | _, none => []
  | fuel + 1, some to_ =>
    match g.board.get to_ with
    | some other =>
      if other.color ≠ color ∧
          does_not_cause_check dbg g king_position color from_ to_ then
        [to_]
      else
        []
    | none =>
      if does_not_cause_check dbg g king_position color from_ to_ then
        to_ :: saturateAux dbg g king_position color from_ f fuel (f to_)
      else
        saturateAux dbg g king_position color from_ f fuel (f to_)

/-- One `saturate(&f)` call of `Game::moves`. -/
def saturate (dbg : Bool) (g : Game) (king_position : Position)
    (color : PieceColor) (from_ : Position) (f : Position → Option Position) :
    List Position :=
  saturateAux dbg g king_position color from_ f 8 (f from_)

/-- The `try_insert` helper of the knight branch of `Game::moves`. -/
def tryInsert (dbg : Bool) (g : Game) (king_position : Position)
    (color : PieceColor) (from_ : Position) (to_ : Option Position) : List Position :=
  match to_ with
  | none => []
  | some to_ =>
    match g.board.get to_ with
    | some other =>
      if other.color ≠ color ∧
          does_not_cause_check dbg g king_position color from_ to_ then
        [to_]
      else
        []
    | none =>
      if does_not_cause_check dbg g king_position color from_ to_ then
        [to_]
      else
        []

/-- The king branch's own `does_not_cause_check` closure (which tests the
king's destination square after an ordinary `r#move`). -/
def kingDoesNotCauseCheck (g : Game) (color : PieceColor) (from_ to_ : Position) : Bool :=
  !(g.move from_ to_).attacks color.not to_

/-- The king branch's `try_insert` helper. -/
def kingTryInsert (g : Game) (color : PieceColor) (from_ : Position)
    (to_ : Option Position) : List Position :=
  match to_ with
  | none => []
  | some to_ =>
    match g.board.get to_ with
    | some other =>
      if other.color ≠ color ∧ kingDoesNotCauseCheck g color from_ to_ then
        [to_]
      else
        []
    | none =>
      if kingDoesNotCauseCheck g color from_ to_ then
        [to_]
      else
        []

/-- The pawn en-passant test of `Game::moves` for one side (`side` is
`from.left()` or `from.right()`): the tracked square equals that neighbour and
holds an enemy piece.  The source `expect`s both the neighbour (comment
"rectangle", always present when the diagonal exists) and the occupant
(`Game::just_advanced_two invariant`); on either panic path the model reports
no en passant. -/
def enPassantSide (g : Game) (color : PieceColor) (side : Option Position) : Bool :=
  match g.just_advanced_two with
  | none => false
  | some position =>
    match side with
    | none => false
    | some s =>
      decide (position = s) &&
        match g.board.get position with
        | some pc => decide (pc.color = color.not)
        | none => false

/-- The pawn branch of `Game::moves`.  The source `expect`s the pawn is not on
its last rank; on that panic path the model yields no destinations. -/
def pawnMoves (dbg : Bool) (g : Game) (king_position : Position)
    (color : PieceColor) (from_ : Position) : List Position :=
  match from_.pawn color with
  | none => []
  | some forward =>
    let push :=
      if g.board.is_vacant forward ∧
          does_not_cause_check dbg g king_position color from_ forward then
        [forward]
      else
        []
    let pushTwo :=
      match forward.pawn color with
      | none => []
      | some forward_two =>
        if from_.rank = color.pawn_starting_rank ∧
            g.board.is_vacant forward ∧ g.board.is_vacant forward_two ∧
            does_not_cause_check dbg g king_position color from_ forward_two then
          [forward_two]
        else
          []
    let captureLeft :=
      match forward.left with
      | none => []
      | some capture_left =>
        if ((match g.board.get capture_left with
             | some other => decide (other.color = color.not)
             | none => false) ||
            enPassantSide g color from_.left) &&
            does_not_cause_check dbg g king_position color from_ capture_left then
          [capture_left]
        else
          []
    let captureRight :=
      match forward.right with
      | none => []
      | some capture_right =>
        if ((match g.board.get capture_right with
             | some other => decide (other.color = color.not)
             | none => false) ||
            enPassantSide g color from_.right) &&
            does_not_cause_check dbg g king_position color from_ capture_right then
          [capture_right]
        else
          []
    push ++ pushTwo ++ captureLeft ++ captureRight

/-- The king branch of `Game::moves`: eight single steps, then the queenside
and kingside castling candidates.  The castling `expect("castling")` panic
paths (king too close to an edge for the stepped squares to exist) yield no
candidate in the model. -/
def kingMoves (_dbg : Bool) (g : Game) (color : PieceColor) (from_ : Position) :
    List Position :=
  let steps :=
    kingTryInsert g color from_ from_.up ++
    kingTryInsert g color from_ (oright from_.up) ++
    kingTryInsert g color from_ from_.right ++
    kingTryInsert g color from_ (oright from_.down) ++
    kingTryInsert g color from_ from_.down ++
    kingTryInsert g color from_ (oleft from_.down) ++
    kingTryInsert g color from_ from_.left ++
    kingTryInsert g color from_ (oleft from_.up)
  let queenside :=
    if (g.castling.get color).can_castle_queenside then
      match from_.left with
      | none => []
      | some left =>
        match left.left with
        | none => []
        | some left_left =>
          match left_left.left with
          | none => []
          | some left_left_left =>
            if g.board.is_vacant left ∧ g.board.is_vacant left_left ∧
                g.board.is_vacant left_left_left ∧
                ¬ g.attacks color.not from_ ∧
                ¬ g.attacks color.not left ∧
                ¬ g.attacks color.not left_left then
              [left_left]
            else
              []
    else
      []
  let kingside :=
    if (g.castling.get color).can_castle_kingside then
      match from_.right with
      | none => []
      | some right =>
        match right.right with
        | none => []
        | some right_right =>
          if g.board.is_vacant right ∧ g.board.is_vacant right_right ∧
              ¬ g.attacks color.not from_ ∧
              ¬ g.attacks color.not right ∧
              ¬ g.attacks color.not right_right then
            [right_right]
          else
            []
    else
      []
  steps ++ queenside ++ kingside

/-- The destination list of one piece in `Game::moves`, in the source's push
order. -/
def pieceMoves (dbg : Bool) (g : Game) (king_position : Position)
    (color : PieceColor) (from_ : Position) (piece : PieceType) : List Position :=
  match piece with
  | PieceType.Pawn => pawnMoves dbg g king_position color from_
  | PieceType.Knight =>
    tryInsert dbg g king_position color from_ (oleft (oup from_.up)) ++
    tryInsert dbg g king_position color from_ (oright (oup from_.up)) ++
    tryInsert dbg g king_position color from_ (oup (oleft from_.left)) ++
    tryInsert dbg g king_position color from_ (odown (oleft from_.left)) ++
    tryInsert dbg g king_position color from_ (oleft (odown from_.down)) ++
    tryInsert dbg g king_position color from_ (oright (odown from_.down)) ++
    tryInsert dbg g king_position color from_ (oup (oright from_.right)) ++
    tryInsert dbg g king_position color from_ (odown (oright from_.right))
  | PieceType.Bishop =>
    saturate dbg g king_position color from_ (fun p => oleft p.up) ++
    saturate dbg g king_position color from_ (fun p => oright p.up) ++
    saturate dbg g king_position color from_ (fun p => oleft p.down) ++
    saturate dbg g king_position color from_ (fun p => oright p.down)
  | PieceType.Rook =>
    saturate dbg g king_position color from_ Position.up ++
    saturate dbg g king_position color from_ Position.left ++
    saturate dbg g king_position color from_ Position.down ++
    saturate dbg g king_position color from_ Position.right
  | PieceType.Queen =>
    saturate dbg g king_position color from_ Position.up ++
    saturate dbg g king_position color from_ Position.left ++
    saturate dbg g king_position color from_ Position.down ++
    saturate dbg g king_position color from_ Position.right ++
    saturate dbg g king_position color from_ (fun p => oleft p.up) ++
    saturate dbg g king_position color from_ (fun p => oright p.up) ++
    saturate dbg g king_position color from_ (fun p => oleft p.down) ++
    saturate dbg g king_position color from_ (fun p => oright p.down)
  | PieceType.King => kingMoves dbg g color from_

/-- `Game::moves`: per-piece destination lists for the side to move.  The
source `expect`s the mover's king to exist ("king always exists"); on that
panic path the model yields no entries. -/
def moves (dbg : Bool) (g : Game) : List (Position × List Position) :=
  match g.board.position_of ⟨g.turn, PieceType.King⟩ with
  | none => []
  | some king_position =>
    (g.board.iter g.turn).map (fun (fp : Position × Piece) =>
      (fp.1, pieceMoves dbg g king_position g.turn fp.1 fp.2.piece))

/-- `Game::check`.  On the "king always exists" panic path the model reports
no check. -/
def check (g : Game) : Bool :=
  match g.board.position_of ⟨g.turn, PieceType.King⟩ with
  | none => false
  | some king_position => g.attacks g.turn.not king_position

/-- `Game::mate`: every destination list is empty. -/
def mate (dbg : Bool) (g : Game) : Bool :=
  (g.moves dbg).all (fun fp => fp.2.isEmpty)

/-- `Game::status`. -/
def status (dbg : Bool) (g : Game) : Option Outcome :=
  if g.mate dbg then
    some (if g.check then Outcome.Win g.turn.not else Outcome.Draw)
  else
    none

/-- `Game::iter`. -/
def iter (g : Game) (color : PieceColor) : List (Position × Piece) :=
  g.board.iter color

end Game

/-- `Move` from src/ai.rs. -/
inductive Move where
  | Move (from_ to_ : Position)
  | Promote (from_ to_ : Position) (piece_type : PieceType)
deriving DecidableEq, Repr

/-- `Evaluation` from src/ai.rs.  `Estimate(i8)` carries an `Int`; the i8
comparisons the code performs coincide with integer comparisons, and the
material estimates the program produces stay far inside the i8 range. -/
inductive Evaluation where
  | Outcome (outcome : Outcome)
  | Estimate (n : Int)
deriving DecidableEq, Repr

namespace Evaluation

/-- `Evaluation::MIN`. -/
def MIN : Evaluation :=
  Outcome (Outcome.Win PieceColor.Black)

/-- `Evaluation::MAX`. -/
def MAX : Evaluation :=
  Outcome (Outcome.Win PieceColor.White)

/-- `i8::cmp` on the carried integers. -/
def intCmp (n m : Int) : Ordering :=
  if n < m then Ordering.lt else if n = m then Ordering.eq else Ordering.gt

/-- `impl Ord for Evaluation`: the match arms of the source, in order. -/
def cmp : Evaluation → Evaluation → Ordering
  | Outcome (Outcome.Win PieceColor.White), Outcome (Outcome.Win PieceColor.White) =>
    Ordering.eq
  | Outcome (Outcome.Win PieceColor.White), _ => Ordering.gt
  | _, Outcome (Outcome.Win PieceColor.White) => Ordering.lt
  | Outcome (Outcome.Win PieceColor.Black), Outcome (Outcome.Win PieceColor.Black) =>
    Ordering.eq
  | Outcome (Outcome.Win PieceColor.Black), _ => Ordering.lt
  | _, Outcome (Outcome.Win PieceColor.Black) => Ordering.gt
  | Outcome Outcome.Draw, Outcome Outcome.Draw => Ordering.eq
  | Outcome Outcome.Draw, Estimate n => intCmp 0 n
  | Estimate n, Outcome Outcome.Draw => intCmp n 0
  | Estimate n, Estimate m => intCmp n m

/-- Rust `a > b` via `Ord` (`a.cmp(b) == Greater`). -/
def gtb (a b : Evaluation) : Bool :=
  cmp a b = Ordering.gt

/-- Rust `a < b` via `Ord` (`a.cmp(b) == Less`). -/
def ltb (a b : Evaluation) : Bool :=
  cmp a b = Ordering.lt

/-- The non-strict order induced by `cmp`. -/
def le (a b : Evaluation) : Prop :=
  cmp a b ≠ Ordering.gt

/-- The strict order induced by `cmp`. -/
def lt (a b : Evaluation) : Prop :=
  cmp a b = Ordering.lt

instance : DecidablePred (fun ab : Evaluation × Evaluation => le ab.1 ab.2) :=
  fun _ => by unfold le; infer_instance

instance (a b : Evaluation) : Decidable (le a b) := by
  unfold le; infer_instance

instance (a b : Evaluation) : Decidable (lt a b) := by
  unfold lt; infer_instance

end Evaluation

/-- `value` from src/ai.rs: relative material value of each piece type. -/
def value : PieceType → Int
  | PieceType.Pawn => 1
  | PieceType.Knight => 3
  | PieceType.Bishop => 3
  | PieceType.Rook => 5
  | PieceType.Queen => 9
  | PieceType.King => 0

/-- `estimate` from src/ai.rs: White material minus Black material. -/
def estimate (game : Game) : Int :=
  ((game.iter PieceColor.White).map (fun pp => value pp.2.piece)).sum -
    ((game.iter PieceColor.Black).map (fun pp => value pp.2.piece)).sum

/-- The move list `minimax` iterates: every `(from, to)` of `Game::moves`,
promotions expanded into the four `PROMOTIONS` in order. -/
def candidates (dbg : Bool) (game : Game) : List Move :=
  ((game.moves dbg).flatMap (fun ft => ft.2.map (fun t => (ft.1, t)))).flatMap
    (fun ft =>
      if game.is_promotion ft.1 ft.2 then
        PROMOTIONS.map (fun piece_type => Move.Promote ft.1 ft.2 piece_type)
      else
        [Move.Move ft.1 ft.2])

/-- Apply a `Move` as the source's match does (`r#move` or `promote`). -/
def applyMove (game : Game) : Move → Game
  | Move.Move f t => game.move f t
  | Move.Promote f t piece_type => game.promote f t piece_type

/-- The `best.is_none_or(..)` update of `minimax`: replace the best move found
so far when the new evaluation strictly improves on it (`strict` is the `>`
test for White, `<` for Black), keeping the first-found move on ties. -/
def updateBest (strict : Evaluation → Evaluation → Bool) (m : Move) (e : Evaluation) :
    Option (Move × Evaluation) → Option (Move × Evaluation)
  | none => some (m, e)
  | some (m₀, b) => if strict e b then some (m, e) else some (m₀, b)

/-- The strict-improvement test of each side (White maximizes, Black
minimizes). -/
def strictFor : PieceColor → Evaluation → Evaluation → Bool
  | PieceColor.White => Evaluation.gtb
  | PieceColor.Black => Evaluation.ltb

/-- The `for` loop of `minimax`: iterate the remaining candidates with the
current best and window, updating `best` on strict improvement, breaking on a
beta (White) or alpha (Black) cutoff, and tightening the window otherwise.
`eval` computes a child's evaluation from the current window. -/
def searchLoop (turn : PieceColor) (eval : Move → Evaluation → Evaluation → Evaluation) :
    List Move → Option (Move × Evaluation) → Evaluation → Evaluation →
    Option (Move × Evaluation)
  | [], best, _, _ => best
  | m :: rest, best, alpha, beta =>
    let evaluation := eval m alpha beta
    match turn with
    | PieceColor.White =>
      let best' := updateBest Evaluation.gtb m evaluation best
      if Evaluation.gtb evaluation beta then
        best'
      else
        searchLoop turn eval rest best'
          (if Evaluation.gtb evaluation alpha then evaluation else alpha) beta
    | PieceColor.Black =>
      let best' := updateBest Evaluation.ltb m evaluation best
      if Evaluation.ltb evaluation alpha then
        best'
      else
        searchLoop turn eval rest best' alpha
          (if Evaluation.ltb evaluation beta then evaluation else beta)

/-- `minimax` from src/ai.rs.  `REQUIRES: game is not in mate`: the source
`expect`s a best move; the model returns `none` on that panic path.  A child
whose recursive call would panic contributes the junk value `Estimate 0`
(never reached: a child with `status() == None` is itself not in mate). -/
def minimax (dbg : Bool) : Nat → Game → Evaluation → Evaluation →
    Option (Move × Evaluation)
  | depth, game, alpha, beta =>
    searchLoop game.turn
      (fun m alpha' beta' =>
        let game' := applyMove game m
        match game'.status dbg with
        | some outcome => Evaluation.Outcome outcome
        | none =>
          match depth with
          | 0 => Evaluation.Estimate (estimate game')
          | depth' + 1 =>
            match minimax dbg depth' game' alpha' beta' with
            | some r => r.2
            | none => Evaluation.Estimate 0)
      (candidates dbg game) none alpha beta

/-- `choose` from src/ai.rs (the `.0` projection; `none` models the panic on a
position with no legal move). -/
def choose (dbg : Bool) (game : Game) (depth : Nat) : Option Move :=
  (minimax dbg depth game Evaluation.MIN Evaluation.MAX).map Prod.fst

/-- Modelled from the spec: the loop of a plain minimax without pruning
(spec sections 4.5 and 8: same traversal order and first-strict-improvement
tie-breaking, but no alpha-beta window and no cutoff). -/
def plainLoop (turn : PieceColor) (eval : Move → Evaluation) :
    List Move → Option (Move × Evaluation) → Option (Move × Evaluation)
  | [], best => best
  | m :: rest, best =>
    let best' := updateBest (strictFor turn) m (eval m) best
    plainLoop turn eval rest best'

/-- Modelled from the spec: plain (unpruned) minimax on the same game tree as
`minimax` — recursively evaluate every legal move (promotions expanded in
`PROMOTIONS` order), with terminal positions valued by their outcome and
depth-exhausted positions by the material estimate; White maximizes and Black
minimizes, ties keeping the first move found (spec sections 4.5 and 8). -/
def plainMinimax (dbg : Bool) : Nat → Game → Option (Move × Evaluation)
  | depth, game =>
    plainLoop game.turn
      (fun m =>
        let game' := applyMove game m
        match game'.status dbg with
        | some outcome => Evaluation.Outcome outcome
        | none =>
          match depth with
          | 0 => Evaluation.Estimate (estimate game')
          | depth' + 1 =>
            match plainMinimax dbg depth' game' with
            | some r => r.2
            | none => Evaluation.Estimate 0)
      (candidates dbg game) none

/-- `(from, to)` is produced by `Game::moves` on `g`. -/
def legalB (dbg : Bool) (g : Game) (from_ to_ : Position) : Bool :=
  (g.moves dbg).any (fun ft => decide (ft.1 = from_) && ft.2.contains to_)

/-- The states reachable from `Game::new` by applying `Game::r#move` to
non-promotion generated moves and `Game::promote` (with a `PROMOTIONS` piece
type) to generated promotion moves. -/
inductive Reachable (dbg : Bool) : Game → Prop where
  | base : Reachable dbg Game.new
  | move_step (g : Game) (from_ to_ : Position) :
      Reachable dbg g →
      legalB dbg g from_ to_ = true →
      g.is_promotion from_ to_ = false →
      Reachable dbg (g.move from_ to_)
  | promote_step (g : Game) (from_ to_ : Position) (piece_type : PieceType) :
      Reachable dbg g →
      legalB dbg g from_ to_ = true →
      g.is_promotion from_ to_ = true →
      piece_type ∈ PROMOTIONS →
      Reachable dbg (g.promote from_ to_ piece_type)

/-- The number of squares holding exactly `piece` (used to state the one-king
invariant). -/
def countPiece (b : Board) (piece : Piece) : Nat :=
  ((List.range 64).filter (fun i => b.get ⟨i⟩ = some piece)).length

/-! The following concrete game is the line
1. d4 d5  2. Bg5 Kd7  3. Qd2 Kc6  4. Qb4 a6  5. Qb5+ Kxb5  6. Nd2 Ka4
7. b4 Ka3  8. h3 Kb2  9. h4 Kxa1  10. O-O-O Kxc1,
every half-move of which is generated by `Game::moves` (checked by `decide`
below).  After 9...Kxa1 the black king occupies a1 while White's queenside
castling right is still set (capturing the never-moved rook does not clear it,
and move generation never checks that the rook is present).  10. O-O-O then
relocates the black king from a1 to d1 through the castling branch of
`Board::r#move` — whose `debug_assert_eq!` that the relocated piece is the
mover's rook fails in a debug build — and 10...Kxc1 captures the white king. -/

/-- After 1. d4 (d2 to d4; squares are `rank * 8 + file`). -/
def kcl1 : Game := Game.new.move ⟨11⟩ ⟨27⟩

/-- After 1...d5. -/
def kcl2 : Game := kcl1.move ⟨51⟩ ⟨35⟩

/-- After 2. Bg5. -/
def kcl3 : Game := kcl2.move ⟨2⟩ ⟨38⟩

/-- After 2...Kd7. -/
def kcl4 : Game := kcl3.move ⟨60⟩ ⟨51⟩

/-- After 3. Qd2. -/
def kcl5 : Game := kcl4.move ⟨3⟩ ⟨11⟩

/-- After 3...Kc6. -/
def kcl6 : Game := kcl5.move ⟨51⟩ ⟨42⟩

/-- After 4. Qb4. -/
def kcl7 : Game := kcl6.move ⟨11⟩ ⟨25⟩

/-- After 4...a6. -/
def kcl8 : Game := kcl7.move ⟨48⟩ ⟨40⟩

/-- After 5. Qb5+. -/
def kcl9 : Game := kcl8.move ⟨25⟩ ⟨33⟩

/-- After 5...Kxb5 (the king captures the undefended queen). -/
def kcl10 : Game := kcl9.move ⟨42⟩ ⟨33⟩

/-- After 6. Nd2. -/
def kcl11 : Game := kcl10.move ⟨1⟩ ⟨11⟩

/-- After 6...Ka4. -/
def kcl12 : Game := kcl11.move ⟨33⟩ ⟨24⟩

/-- After 7. b4. -/
def kcl13 : Game := kcl12.move ⟨9⟩ ⟨25⟩

/-- After 7...Ka3. -/
def kcl14 : Game := kcl13.move ⟨24⟩ ⟨16⟩

/-- After 8. h3. -/
def kcl15 : Game := kcl14.move ⟨15⟩ ⟨23⟩

/-- After 8...Kb2. -/
def kcl16 : Game := kcl15.move ⟨16⟩ ⟨9⟩

/-- After 9. h4. -/
def kcl17 : Game := kcl16.move ⟨23⟩ ⟨31⟩

/-- After 9...Kxa1: the black king captures the never-moved queenside rook on
its home square, leaving White's queenside castling flag set. -/
def kcl18 : Game := kcl17.move ⟨9⟩ ⟨0⟩

/-- After 10. O-O-O (e1 to c1): the castling branch of `Board::r#move` takes
whatever occupies a1 — here the black king — and deposits it on d1. -/
def kcl19 : Game := kcl18.move ⟨4⟩ ⟨2⟩

/-- After 10...Kxc1: the black king (placed on d1 by White's own castling
move) captures the white king. -/
def kcl20 : Game := kcl19.move ⟨3⟩ ⟨2⟩

/-- One `Game::r#move` or `Game::promote` transition, with arbitrary
arguments. -/
def GameStep (g g' : Game) : Prop :=
  (∃ from_ to_, g' = g.move from_ to_) ∨
  (∃ from_ to_ piece_type, g' = g.promote from_ to_ piece_type)

/-- Any finite sequence of `Game::r#move` / `Game::promote` transitions. -/
def GameSteps : Game → Game → Prop :=
  Relation.ReflTransGen GameStep

/-- A small board for concrete instantiations: a white rook on its a1 home
square and a black king on b2, Black to move. -/
def rookCaptureGame : Game :=
  { turn := PieceColor.Black
    board := ((List.replicate 64 none).set 0 (some ⟨PieceColor.White, PieceType.Rook⟩)).set 9
      (some ⟨PieceColor.Black, PieceType.King⟩)
    just_advanced_two := none
    castling := Castling.new }

/-- A small board for concrete promotion instantiations: a white pawn on a7,
White to move. -/
def promotionGame : Game :=
  { turn := PieceColor.White
    board := (List.replicate 64 none).set 48 (some ⟨PieceColor.White, PieceType.Pawn⟩)
    just_advanced_two := none
    castling := Castling.new }

/-- Helper for order reasoning: the tier of an evaluation
(`Win(White)` above every estimate, `Win(Black)` below). -/
def keyTier : Evaluation → Int
  | Evaluation.Outcome (Outcome.Win PieceColor.White) => 1
  | Evaluation.Outcome (Outcome.Win PieceColor.Black) => -1
  | Evaluation.Outcome Outcome.Draw => 0
  | Evaluation.Estimate _ => 0

/-- Helper for order reasoning: the numeric part of an evaluation
(`Draw` counts as the estimate 0). -/
def keyVal : Evaluation → Int
  | Evaluation.Outcome _ => 0
  | Evaluation.Estimate n => n

/-- Helper for order reasoning: lexicographic comparison of (tier, value). -/
def lexCmp (t1 v1 t2 v2 : Int) : Ordering :=
  if t1 < t2 then Ordering.lt
  else if t2 < t1 then Ordering.gt
  else Evaluation.intCmp v1 v2

/-- A board with a lone white pawn on a2 (for the sideways-pawn move
counterexample). -/
def sidewaysPawnBoard : Board :=
  (List.replicate 64 none).set 8 (some ⟨PieceColor.White, PieceType.Pawn⟩)

/-- A board with a white king on e1 and a white rook on a1 (for concrete
castling instantiations). -/
def castleBoard : Board :=
  ((List.replicate 64 none).set 0 (some ⟨PieceColor.White, PieceType.Rook⟩)).set 4
    (some ⟨PieceColor.White, PieceType.King⟩)

/-- Fail-soft soundness of a windowed value `E` against the unwindowed value
`M` for the window `(a, b)`: below the window `E` over-reports (`M ≤ E`),
inside the window `E` is exact, above the window `E` under-reports
(`M ≥ E`). -/
def WindowSound (E M a b : Evaluation) : Prop :=
  (Evaluation.lt E a → Evaluation.le M E) ∧
  (Evaluation.le a E → Evaluation.le E b → M = E) ∧
  (Evaluation.lt b E → Evaluation.le E M)

/-- Invariant tying the accumulators of the pruned and unpruned White loops:
the pruned best `v` never exceeds the current `alpha`, the plain best `vP`
never exceeds `v`, and once `v` has reached `alpha` the two are literally
equal. -/
def AccumRelW (alpha : Evaluation) :
    Option (Move × Evaluation) → Option (Move × Evaluation) → Prop
  | none, none => True
  | some (_, v), some (_, vP) =>
    Evaluation.le v alpha ∧ Evaluation.le vP v ∧
      (Evaluation.cmp v alpha = Ordering.eq → vP = v)
  | _, _ => False

/-- Mirror of `AccumRelW` for the Black (minimizing) loops, tied to the
current `beta`. -/
def AccumRelB (beta : Evaluation) :
    Option (Move × Evaluation) → Option (Move × Evaluation) → Prop
  | none, none => True
  | some (_, v), some (_, vP) =>
    Evaluation.le beta v ∧ Evaluation.le v vP ∧
      (Evaluation.cmp v beta = Ordering.eq → vP = v)
  | _, _ => False

/-- The relation between a finished pruned search and the finished plain
search on the same node: both fail together (the panic path), or their values
satisfy the fail-soft window soundness. -/
def ResultRel (alpha beta : Evaluation) :
    Option (Move × Evaluation) → Option (Move × Evaluation) → Prop
  | none, none => True
  | some (_, vF), some (_, vM) => WindowSound vF vM alpha beta
  | _, _ => False

/-! ## Theorems -/

/-- C1: from the initial position, White's generated destination lists hold
exactly 20 destinations in total (in either build configuration). -/
theorem c1_initial_position_has_twenty_moves :
    ∀ dbg : Bool, ((Game.new.moves dbg).map (fun ft => ft.2.length)).sum = 20 := by
  decide

theorem kclReach1 : Reachable true kcl1 :=
  Reachable.move_step _ _ _ Reachable.base (by decide) (by decide)

theorem kclReach2 : Reachable true kcl2 :=
  Reachable.move_step _ _ _ kclReach1 (by decide) (by decide)

theorem kclReach3 : Reachable true kcl3 :=
  Reachable.move_step _ _ _ kclReach2 (by decide) (by decide)

theorem kclReach4 : Reachable true kcl4 :=
  Reachable.move_step _ _ _ kclReach3 (by decide) (by decide)

theorem kclReach5 : Reachable true kcl5 :=
  Reachable.move_step _ _ _ kclReach4 (by decide) (by decide)

theorem kclReach6 : Reachable true kcl6 :=
  Reachable.move_step _ _ _ kclReach5 (by decide) (by decide)

theorem kclReach7 : Reachable true kcl7 :=
  Reachable.move_step _ _ _ kclReach6 (by decide) (by decide)

theorem kclReach8 : Reachable true kcl8 :=
  Reachable.move_step _ _ _ kclReach7 (by decide) (by decide)

theorem kclReach9 : Reachable true kcl9 :=
  Reachable.move_step _ _ _ kclReach8 (by decide) (by decide)

theorem kclReach10 : Reachable true kcl10 :=
  Reachable.move_step _ _ _ kclReach9 (by decide) (by decide)

theorem kclReach11 : Reachable true kcl11 :=
  Reachable.move_step _ _ _ kclReach10 (by decide) (by decide)

theorem kclReach12 : Reachable true kcl12 :=
  Reachable.move_step _ _ _ kclReach11 (by decide) (by decide)

theorem kclReach13 : Reachable true kcl13 :=
  Reachable.move_step _ _ _ kclReach12 (by decide) (by decide)

theorem kclReach14 : Reachable true kcl14 :=
  Reachable.move_step _ _ _ kclReach13 (by decide) (by decide)

theorem kclReach15 : Reachable true kcl15 :=
  Reachable.move_step _ _ _ kclReach14 (by decide) (by decide)

theorem kclReach16 : Reachable true kcl16 :=
  Reachable.move_step _ _ _ kclReach15 (by decide) (by decide)

theorem kclReach17 : Reachable true kcl17 :=
  Reachable.move_step _ _ _ kclReach16 (by decide) (by decide)

theorem kclReach18 : Reachable true kcl18 :=
  Reachable.move_step _ _ _ kclReach17 (by decide) (by decide)

theorem kclReach19 : Reachable true kcl19 :=
  Reachable.move_step _ _ _ kclReach18 (by decide) (by decide)

theorem kclReach20 : Reachable true kcl20 :=
  Reachable.move_step _ _ _ kclReach19 (by decide) (by decide)

/-- C3: the one-king-per-color invariant FAILS on the code.  The state reached
from `Game::new` by the twenty generated moves 1. d4 d5 2. Bg5 Kd7 3. Qd2 Kc6
4. Qb4 a6 5. Qb5+ Kxb5 6. Nd2 Ka4 7. b4 Ka3 8. h3 Kb2 9. h4 Kxa1 10. O-O-O
Kxc1 has no white king at all: capturing the never-moved a1 rook does not
clear White's queenside castling flag, move generation never checks that the
rook is present, so 10. O-O-O is generated with the black king sitting on a1;
`Board::r#move`'s castling branch then relocates the black king to d1 (its own
`debug_assert_eq!` that the moved piece is the rook fails in a debug build),
and 10...Kxc1 captures the white king. -/
theorem c3_king_invariant_violated_on_reachable_state :
    Reachable true kcl20 ∧
      countPiece kcl20.board ⟨PieceColor.White, PieceType.King⟩ = 0 ∧
      countPiece kcl20.board ⟨PieceColor.Black, PieceType.King⟩ = 1 :=
  ⟨kclReach20, by decide, by decide⟩

theorem castlingInfo_queenside_mono (o : CastlingInfo → CastlingInfo)
    (ho : o = CastlingInfo.move_king ∨ o = CastlingInfo.move_queenside_rook ∨
      o = CastlingInfo.move_kingside_rook)
    (ci : CastlingInfo) (h : ci.can_castle_queenside = false) :
    (o ci).can_castle_queenside = false := by
  rcases ho with rfl | rfl | rfl <;> cases ci <;>
    simp_all [CastlingInfo.move_king, CastlingInfo.move_queenside_rook,
      CastlingInfo.move_kingside_rook, CastlingInfo.can_castle_queenside]

theorem castlingInfo_kingside_mono (o : CastlingInfo → CastlingInfo)
    (ho : o = CastlingInfo.move_king ∨ o = CastlingInfo.move_queenside_rook ∨
      o = CastlingInfo.move_kingside_rook)
    (ci : CastlingInfo) (h : ci.can_castle_kingside = false) :
    (o ci).can_castle_kingside = false := by
  rcases ho with rfl | rfl | rfl <;> cases ci <;>
    simp_all [CastlingInfo.move_king, CastlingInfo.move_queenside_rook,
      CastlingInfo.move_kingside_rook, CastlingInfo.can_castle_kingside]

/-- After `Game::r#move`, each color's `CastlingInfo` is either unchanged or
the result of one of the three clearing updates. -/
theorem move_castling_cases (g : Game) (from_ to_ : Position) (c : PieceColor) :
    (g.move from_ to_).castling.get c = g.castling.get c ∨
    (g.move from_ to_).castling.get c = (g.castling.get c).move_king ∨
    (g.move from_ to_).castling.get c = (g.castling.get c).move_queenside_rook ∨
    (g.move from_ to_).castling.get c = (g.castling.get c).move_kingside_rook := by
  unfold Game.move
  cases hb : g.board.get from_ with
  | none => simp
  | some piece =>
    simp only
    split
    case isTrue =>
      split <;>
        first
          | (cases c <;> cases hc : piece.color <;>
              simp_all [Castling.get, Castling.set])
          | simp
    case isFalse => simp

/-- `Game::promote` keeps the whole castling state. -/
theorem promote_castling_eq (g : Game) (from_ to_ : Position) (pt : PieceType) :
    (g.promote from_ to_ pt).castling = g.castling := by
  unfold Game.promote
  cases hb : g.board.get from_ <;> simp

/-- C6: a cleared castling right never becomes available again: if
`can_castle_queenside` (resp. `can_castle_kingside`) is false for a color, it
stays false across any further sequence of `Game::r#move` and `Game::promote`
transitions. -/
theorem c6_castling_rights_monotone (g g' : Game) (h : GameSteps g g')
    (c : PieceColor) :
    ((g.castling.get c).can_castle_queenside = false →
      (g'.castling.get c).can_castle_queenside = false) ∧
    ((g.castling.get c).can_castle_kingside = false →
      (g'.castling.get c).can_castle_kingside = false) := by
  induction h with
  | refl => exact ⟨id, id⟩
  | tail _ hstep ih =>
    rename_i gmid gnext _
    refine ⟨fun hq => ?_, fun hk => ?_⟩
    all_goals
      rcases hstep with ⟨from_, to_, rfl⟩ | ⟨from_, to_, pt, rfl⟩
    case _ =>
      rcases move_castling_cases gmid from_ to_ c with hcc | hcc | hcc | hcc <;>
        rw [hcc] <;>
        first
          | exact ih.1 hq
          | exact castlingInfo_queenside_mono _ (by simp) _ (ih.1 hq)
    case _ =>
      rw [promote_castling_eq]
      exact ih.1 hq
    case _ =>
      rcases move_castling_cases gmid from_ to_ c with hcc | hcc | hcc | hcc <;>
        rw [hcc] <;>
        first
          | exact ih.2 hk
          | exact castlingInfo_kingside_mono _ (by simp) _ (ih.2 hk)
    case _ =>
      rw [promote_castling_eq]
      exact ih.2 hk

/-- Witness for C6 at a concrete input: after White plays Ke1-e2 from the
start, the queenside right is cleared and remains cleared one further
transition later. -/
theorem c6_castling_rights_monotone_witness :
    (((Game.new.move ⟨4⟩ ⟨12⟩).move ⟨12⟩ ⟨4⟩).castling.get
        PieceColor.White).can_castle_queenside = false :=
  (c6_castling_rights_monotone (Game.new.move ⟨4⟩ ⟨12⟩) _
      (Relation.ReflTransGen.single (Or.inl ⟨⟨12⟩, ⟨4⟩, rfl⟩))
      PieceColor.White).1 (by decide)

/-- C7: `just_advanced_two` tracking.  A `Game::r#move` of the piece at `from`
yields `just_advanced_two = some p` exactly when the moved piece is a pawn
whose rank changed by two and `p` is its destination; every `Game::promote`
yields `none`; and the initial game carries `none`. -/
theorem c7_just_advanced_two_characterization :
    (∀ (g : Game) (from_ to_ p : Position) (pc : Piece),
      g.board.get from_ = some pc →
      ((g.move from_ to_).just_advanced_two = some p ↔
        (pc.piece = PieceType.Pawn ∧ Nat.dist from_.rank to_.rank = 2 ∧ p = to_))) ∧
    (∀ (g : Game) (from_ to_ : Position) (pt : PieceType) (pc : Piece),
      g.board.get from_ = some pc →
      (g.promote from_ to_ pt).just_advanced_two = none) ∧
    Game.new.just_advanced_two = none := by
  refine ⟨fun g from_ to_ p pc h => ?_, fun g from_ to_ pt pc h => ?_, rfl⟩
  · unfold Game.move
    rw [h]
    simp only
    split
    case isTrue hcond => simp [hcond, eq_comm]
    case isFalse hcond =>
      simp only [reduceCtorEq, false_iff]
      intro hc
      exact hcond ⟨hc.1, hc.2.1⟩
  · unfold Game.promote
    rw [h]

/-- Witness for C7 at a concrete input: after 1. d4 from the start the
en-passant marker is exactly d4. -/
theorem c7_just_advanced_two_witness :
    (Game.new.move ⟨11⟩ ⟨27⟩).just_advanced_two = some ⟨27⟩ :=
  (c7_just_advanced_two_characterization.1 Game.new ⟨11⟩ ⟨27⟩ ⟨27⟩
      ⟨PieceColor.White, PieceType.Pawn⟩ (by decide)).mpr
    ⟨rfl, by decide, rfl⟩

/-- C10: `Game::r#move` never touches the castling rights of the color that is
not moving (even when the move captures that color's never-moved corner rook),
and `Game::promote` keeps both colors' castling rights. -/
theorem c10_castling_frame :
    (∀ (g : Game) (from_ to_ : Position) (pc : Piece) (c : PieceColor),
      g.board.get from_ = some pc → c ≠ pc.color →
      (g.move from_ to_).castling.get c = g.castling.get c) ∧
    (∀ (g : Game) (from_ to_ : Position) (pt : PieceType) (c : PieceColor),
      (g.promote from_ to_ pt).castling.get c = g.castling.get c) := by
  constructor
  · intro g from_ to_ pc c h hne
    unfold Game.move
    rw [h]
    simp only
    split
    case isTrue =>
      split <;>
        first
          | rfl
          | (cases c <;> cases hc : pc.color <;>
              simp_all [Castling.get, Castling.set])
    case isFalse => rfl
  · intro g from_ to_ pt c
    rw [promote_castling_eq]

/-- Witness for C10 at a concrete input: the black king captures White's
never-moved a1 rook, and White's castling rights are untouched (in particular
`can_castle_queenside` stays true). -/
theorem c10_castling_frame_witness :
    (rookCaptureGame.move ⟨9⟩ ⟨0⟩).castling.get PieceColor.White =
      rookCaptureGame.castling.get PieceColor.White :=
  c10_castling_frame.1 rookCaptureGame ⟨9⟩ ⟨0⟩
    ⟨PieceColor.Black, PieceType.King⟩ PieceColor.White (by decide) (by decide)

/-- C8 counterexample: the claim says the check-safety filter simulates a
promotion by `promote(from, to, Queen)`; but `Game::moves` only does so under
`cfg!(debug_assertions)`.  In a release build (`dbg = false`) the filter
simulates the concrete promotion move a7-a8 of `promotionGame` by
`r#move`, leaving a pawn on a8 where a promotion to queen would put a queen. -/
theorem c8_release_filter_counterexample :
    promotionGame.is_promotion ⟨48⟩ ⟨56⟩ = true ∧
    (Game.checkFilterSuccessor false promotionGame ⟨48⟩ ⟨56⟩).board.get ⟨56⟩ =
      some ⟨PieceColor.White, PieceType.Pawn⟩ ∧
    (promotionGame.promote ⟨48⟩ ⟨56⟩ PieceType.Queen).board.get ⟨56⟩ =
      some ⟨PieceColor.White, PieceType.Queen⟩ := by
  refine ⟨by decide, by decide, by decide⟩

/-- C8 (amended): for every promotion candidate, the successor used by the
check-safety filter of `Game::moves` is `promote(from, to, Queen)` in a debug
build (`cfg!(debug_assertions)` true) and `r#move(from, to)` in a release
build. -/
theorem c8_promotion_filter_by_configuration (g : Game) (from_ to_ : Position)
    (h : g.is_promotion from_ to_ = true) :
    Game.checkFilterSuccessor true g from_ to_ = g.promote from_ to_ PieceType.Queen ∧
    Game.checkFilterSuccessor false g from_ to_ = g.move from_ to_ := by
  unfold Game.checkFilterSuccessor
  simp [h]

/-- Witness for the amended C8 at a concrete input. -/
theorem c8_promotion_filter_by_configuration_witness :
    Game.checkFilterSuccessor true promotionGame ⟨48⟩ ⟨56⟩ =
      promotionGame.promote ⟨48⟩ ⟨56⟩ PieceType.Queen ∧
    Game.checkFilterSuccessor false promotionGame ⟨48⟩ ⟨56⟩ =
      promotionGame.move ⟨48⟩ ⟨56⟩ :=
  c8_promotion_filter_by_configuration promotionGame ⟨48⟩ ⟨56⟩ (by decide)

theorem cmp_eq_lex (a b : Evaluation) :
    Evaluation.cmp a b = lexCmp (keyTier a) (keyVal a) (keyTier b) (keyVal b) := by
  rcases a with ⟨oa⟩ | na <;> rcases b with ⟨ob⟩ | nb
  · rcases oa with ca | _ <;> rcases ob with cb | _ <;>
      first
        | (cases ca <;> cases cb <;>
            simp [Evaluation.cmp, lexCmp, keyTier, keyVal, Evaluation.intCmp])
        | (cases ca <;>
            simp [Evaluation.cmp, lexCmp, keyTier, keyVal, Evaluation.intCmp])
        | (cases cb <;>
            simp [Evaluation.cmp, lexCmp, keyTier, keyVal, Evaluation.intCmp])
        | simp [Evaluation.cmp, lexCmp, keyTier, keyVal, Evaluation.intCmp]
  · rcases oa with ca | _ <;>
      first
        | (cases ca <;>
            simp [Evaluation.cmp, lexCmp, keyTier, keyVal, Evaluation.intCmp])
        | simp [Evaluation.cmp, lexCmp, keyTier, keyVal, Evaluation.intCmp]
  · rcases ob with cb | _ <;>
      first
        | (cases cb <;>
            simp [Evaluation.cmp, lexCmp, keyTier, keyVal, Evaluation.intCmp])
        | simp [Evaluation.cmp, lexCmp, keyTier, keyVal, Evaluation.intCmp]
  · simp [Evaluation.cmp, lexCmp, keyTier, keyVal, Evaluation.intCmp]

theorem lexCmp_lt_iff (t1 v1 t2 v2 : Int) :
    lexCmp t1 v1 t2 v2 = Ordering.lt ↔ (t1 < t2 ∨ (t1 = t2 ∧ v1 < v2)) := by
  unfold lexCmp Evaluation.intCmp
  split_ifs <;> simp <;> omega

theorem lexCmp_eq_iff (t1 v1 t2 v2 : Int) :
    lexCmp t1 v1 t2 v2 = Ordering.eq ↔ (t1 = t2 ∧ v1 = v2) := by
  unfold lexCmp Evaluation.intCmp
  split_ifs <;> simp <;> omega

theorem lexCmp_gt_iff (t1 v1 t2 v2 : Int) :
    lexCmp t1 v1 t2 v2 = Ordering.gt ↔ (t2 < t1 ∨ (t2 = t1 ∧ v2 < v1)) := by
  unfold lexCmp Evaluation.intCmp
  split_ifs <;> simp <;> omega

theorem cmp_lt_iff (a b : Evaluation) :
    Evaluation.cmp a b = Ordering.lt ↔
      (keyTier a < keyTier b ∨ (keyTier a = keyTier b ∧ keyVal a < keyVal b)) := by
  rw [cmp_eq_lex, lexCmp_lt_iff]

theorem cmp_eq_iff (a b : Evaluation) :
    Evaluation.cmp a b = Ordering.eq ↔ (keyTier a = keyTier b ∧ keyVal a = keyVal b) := by
  rw [cmp_eq_lex, lexCmp_eq_iff]

theorem cmp_gt_iff (a b : Evaluation) :
    Evaluation.cmp a b = Ordering.gt ↔
      (keyTier b < keyTier a ∨ (keyTier b = keyTier a ∧ keyVal b < keyVal a)) := by
  rw [cmp_eq_lex, lexCmp_gt_iff]

theorem le_iff (a b : Evaluation) :
    Evaluation.le a b ↔
      (keyTier a < keyTier b ∨ (keyTier a = keyTier b ∧ keyVal a ≤ keyVal b)) := by
  unfold Evaluation.le
  rw [cmp_eq_lex]
  unfold lexCmp Evaluation.intCmp
  split_ifs <;> simp <;> omega

theorem lt_iff (a b : Evaluation) :
    Evaluation.lt a b ↔
      (keyTier a < keyTier b ∨ (keyTier a = keyTier b ∧ keyVal a < keyVal b)) := by
  unfold Evaluation.lt
  exact cmp_lt_iff a b

theorem gtb_iff (a b : Evaluation) : Evaluation.gtb a b = true ↔ Evaluation.lt b a := by
  unfold Evaluation.gtb Evaluation.lt
  rw [decide_eq_true_iff, cmp_gt_iff, cmp_lt_iff]

theorem ltb_iff (a b : Evaluation) : Evaluation.ltb a b = true ↔ Evaluation.lt a b := by
  unfold Evaluation.ltb Evaluation.lt
  rw [decide_eq_true_iff]

theorem not_lt_iff_le (a b : Evaluation) : ¬ Evaluation.lt a b ↔ Evaluation.le b a := by
  rw [lt_iff, le_iff]
  omega

theorem eval_le_refl (a : Evaluation) : Evaluation.le a a := by
  rw [le_iff]; omega

theorem eval_le_total (a b : Evaluation) : Evaluation.le a b ∨ Evaluation.le b a := by
  rw [le_iff, le_iff]; omega

theorem eval_le_trans {a b c : Evaluation} :
    Evaluation.le a b → Evaluation.le b c → Evaluation.le a c := by
  rw [le_iff, le_iff, le_iff]; omega

theorem eval_lt_of_le_of_lt {a b c : Evaluation} :
    Evaluation.le a b → Evaluation.lt b c → Evaluation.lt a c := by
  rw [le_iff, lt_iff, lt_iff]; omega

theorem eval_lt_of_lt_of_le {a b c : Evaluation} :
    Evaluation.lt a b → Evaluation.le b c → Evaluation.lt a c := by
  rw [le_iff, lt_iff, lt_iff]; omega

theorem eval_le_of_lt {a b : Evaluation} : Evaluation.lt a b → Evaluation.le a b := by
  rw [le_iff, lt_iff]; omega

theorem eval_le_MAX (a : Evaluation) : Evaluation.le a Evaluation.MAX := by
  rw [le_iff]
  rcases a with ⟨oa⟩ | na
  · rcases oa with ca | _
    · cases ca <;> simp [keyTier, keyVal, Evaluation.MAX] <;> omega
    · simp [keyTier, keyVal, Evaluation.MAX]
  · simp [keyTier, keyVal, Evaluation.MAX]

theorem eval_MIN_le (a : Evaluation) : Evaluation.le Evaluation.MIN a := by
  rw [le_iff]
  rcases a with ⟨oa⟩ | na
  · rcases oa with ca | _
    · cases ca <;> simp [keyTier, keyVal, Evaluation.MIN] <;> omega
    · simp [keyTier, keyVal, Evaluation.MIN]
  · simp [keyTier, keyVal, Evaluation.MIN]

/-- Comparing-equal evaluations compare identically against everything
(the congruence used by the tie-breaking analysis). -/
theorem cmp_congr_left {a b : Evaluation} (h : Evaluation.cmp a b = Ordering.eq)
    (c : Evaluation) : Evaluation.cmp a c = Evaluation.cmp b c := by
  rw [cmp_eq_iff] at h
  rw [cmp_eq_lex, cmp_eq_lex, h.1, h.2]

/-- C9 counterexample: the comparison is NOT a total order on `Evaluation`:
`Outcome(Draw)` and `Estimate(0)` are distinct values that compare equal, so
antisymmetry (and Rust's `Ord`/`PartialEq` consistency contract) fails at this
concrete input. -/
theorem c9_total_order_counterexample :
    Evaluation.cmp (Evaluation.Outcome Outcome.Draw) (Evaluation.Estimate 0) =
        Ordering.eq ∧
      Evaluation.Outcome Outcome.Draw ≠ Evaluation.Estimate 0 := by
  refine ⟨by decide, by decide⟩

/-- C9 (amended): the comparison on `Evaluation` is a total preorder — its
non-strict order is reflexive, transitive and total (antisymmetry fails only
for `Outcome(Draw)` versus `Estimate(0)`, which compare equal) — in which
`Outcome(Win(White))` is a maximum, strictly above every `Estimate`;
`Outcome(Win(Black))` is a minimum, strictly below every `Estimate`;
`Outcome(Draw)` compares to `Estimate(n)` exactly as `0` compares to `n`;
`Estimate(n)` and `Estimate(m)` compare as the integers `n` and `m`; and two
wins for the same side compare equal. -/
theorem c9_evaluation_order :
    (∀ a : Evaluation, Evaluation.le a a) ∧
    (∀ a b c : Evaluation, Evaluation.le a b → Evaluation.le b c → Evaluation.le a c) ∧
    (∀ a b : Evaluation, Evaluation.le a b ∨ Evaluation.le b a) ∧
    (∀ a : Evaluation, Evaluation.le a Evaluation.MAX) ∧
    (∀ n : Int, Evaluation.lt (Evaluation.Estimate n) Evaluation.MAX) ∧
    (∀ a : Evaluation, Evaluation.le Evaluation.MIN a) ∧
    (∀ n : Int, Evaluation.lt Evaluation.MIN (Evaluation.Estimate n)) ∧
    (∀ n : Int, Evaluation.cmp (Evaluation.Outcome Outcome.Draw) (Evaluation.Estimate n) =
      Evaluation.intCmp 0 n) ∧
    (∀ n : Int, Evaluation.cmp (Evaluation.Estimate n) (Evaluation.Outcome Outcome.Draw) =
      Evaluation.intCmp n 0) ∧
    (∀ n m : Int, Evaluation.cmp (Evaluation.Estimate n) (Evaluation.Estimate m) =
      Evaluation.intCmp n m) ∧
    Evaluation.cmp Evaluation.MAX Evaluation.MAX = Ordering.eq ∧
    Evaluation.cmp Evaluation.MIN Evaluation.MIN = Ordering.eq := by
  refine ⟨eval_le_refl, fun a b c => eval_le_trans, eval_le_total, eval_le_MAX,
    ?_, eval_MIN_le, ?_, fun n => rfl, fun n => rfl, fun n m => rfl, rfl, rfl⟩
  · intro n
    rw [lt_iff]
    simp [keyTier, keyVal, Evaluation.MAX]
  · intro n
    rw [lt_iff]
    simp [keyTier, keyVal, Evaluation.MIN]

/-- Witness for the amended C9 at concrete inputs: transitivity applied to
`Estimate 1 ≤ Estimate 2 ≤ Outcome(Win(White))`. -/
theorem c9_evaluation_order_witness :
    Evaluation.le (Evaluation.Estimate 1) Evaluation.MAX :=
  c9_evaluation_order.2.1 (Evaluation.Estimate 1) (Evaluation.Estimate 2)
    Evaluation.MAX (by decide) (by decide)

theorem board_get_update_eq (b : Board) (p : Position) (v : Option Piece)
    (h : p.val < b.length) : (b.update p v).get p = v := by
  unfold Board.update Board.get
  rw [List.getD_eq_getElem?_getD, List.getElem?_set_self (by simpa using h)]
  rfl

theorem board_get_update_ne (b : Board) (p q : Position) (v : Option Piece)
    (h : p.val ≠ q.val) : (b.update p v).get q = b.get q := by
  unfold Board.update Board.get
  rw [List.getD_eq_getElem?_getD, List.getElem?_set_ne h, ← List.getD_eq_getElem?_getD]

theorem board_update_length (b : Board) (p : Position) (v : Option Piece) :
    (b.update p v).length = b.length :=
  List.length_set b p.val v

theorem position_val_eq (p : Position) : p.val = p.rank * 8 + p.file := by
  unfold Position.rank Position.file
  omega

theorem position_left_eq {p q : Position} (h : p.left = some q) :
    0 < p.file ∧ q = ⟨p.val - 1⟩ := by
  unfold Position.left at h
  split_ifs at h with hc
  exact ⟨hc, (Option.some_injective _ h).symm⟩

theorem position_right_eq {p q : Position} (h : p.right = some q) :
    p.file < 7 ∧ q = ⟨p.val + 1⟩ := by
  unfold Position.right at h
  split_ifs at h with hc
  exact ⟨hc, (Option.some_injective _ h).symm⟩

theorem position_file_lt (p : Position) : p.file < 8 :=
  Nat.mod_lt _ (by omega)

/-- The rook square pair computed by the castling branch of `Board::r#move`:
queenside it is `(to - 2, to + 1)` with `2 ≤ to.file`, kingside it is
`(to + 1, to - 1)` with `0 < to.file < 7`. -/
theorem pair_cases (from_ to_ : Position) (rf rt : Position)
    (h : (if to_.file < from_.file then
            match oleft to_.left, to_.right with
            | some rf, some rt => some (rf, rt)
            | _, _ => none
          else
            match to_.right, to_.left with
            | some rf, some rt => some (rf, rt)
            | _, _ => none) = some (rf, rt)) :
    (to_.file < from_.file ∧ 2 ≤ to_.file ∧ to_.file < 7 ∧
      rf = ⟨to_.val - 2⟩ ∧ rt = ⟨to_.val + 1⟩) ∨
    (from_.file ≤ to_.file ∧ 0 < to_.file ∧ to_.file < 7 ∧
      rf = ⟨to_.val + 1⟩ ∧ rt = ⟨to_.val - 1⟩) := by
  have htr := position_val_eq to_
  have htf := position_file_lt to_
  split_ifs at h with hqs
  · left
    cases hl : to_.left with
    | none => rw [hl] at h; simp [oleft] at h
    | some mid =>
      rw [hl] at h
      cases hml : mid.left with
      | none => simp [oleft, hml] at h
      | some rf0 =>
        cases hr : to_.right with
        | none => simp [oleft, hml, hr] at h
        | some rt0 =>
          simp only [oleft, Option.bind, hml, hr] at h
          obtain ⟨hrf, hrt⟩ := Prod.mk.injEq .. ▸ Option.some_injective _ h
          obtain ⟨hlf, rfl⟩ := position_left_eq hl
          obtain ⟨hmf, hrf0⟩ := position_left_eq hml
          obtain ⟨hrtf, hrt0⟩ := position_right_eq hr
          subst hrf hrt hrf0 hrt0
          have hmf2 : 0 < (to_.val - 1) % 8 := hmf
          refine ⟨hqs, by omega, hrtf, by simp only [Position.mk.injEq]; omega, rfl⟩
  · right
    cases hr : to_.right with
    | none => rw [hr] at h; simp at h
    | some rf0 =>
      rw [hr] at h
      cases hl : to_.left with
      | none => simp [hl] at h
      | some rt0 =>
        simp only [hl] at h
        obtain ⟨hrf, hrt⟩ := Prod.mk.injEq .. ▸ Option.some_injective _ h
        obtain ⟨hrff, hrf0⟩ := position_right_eq hr
        obtain ⟨hltf, hrt0⟩ := position_left_eq hl
        subst hrf hrt hrf0 hrt0
        exact ⟨by omega, hltf, hrff, rfl, rfl⟩

/-- Conjunct (b) of C5: `Board::r#move` empties the source square. -/
theorem c5aux_source (b : Board) (from_ to_ : Position) (pc : Piece)
    (hlen : b.length = 64) (hf : from_.val < 64) (ht : to_.val < 64)
    (hb : b.get from_ = some pc) (hne : from_ ≠ to_) :
    (b.move from_ to_).get from_ = none := by
  have hfr := position_val_eq from_
  have htr := position_val_eq to_
  have hff := position_file_lt from_
  have htf := position_file_lt to_
  have hnev : from_.val ≠ to_.val := fun hv => hne (by cases from_; cases to_; simpa using hv)
  unfold Board.move
  rw [hb]
  simp only
  have hlen1 : ((b.update from_ none).update to_ (some pc)).length = 64 := by
    simp [board_update_length, hlen]
  have hb2 : ((b.update from_ none).update to_ (some pc)).get from_ = none := by
    rw [board_get_update_ne _ _ _ _ (Ne.symm hnev),
      board_get_update_eq _ _ _ (by omega)]
  by_cases hK : pc.piece = PieceType.King ∧ Nat.dist from_.file to_.file = 2
  · rw [if_pos hK]
    have hdist := hK.2
    unfold Nat.dist at hdist
    have hEP : ¬(pc.piece = PieceType.Pawn ∧ from_.file ≠ to_.file ∧
        (b.update from_ none).get to_ = none) := by
      rw [hK.1]; simp
    simp only [if_neg hEP]
    cases hpq : (if to_.file < from_.file then
        match oleft to_.left, to_.right with
        | some rf, some rt => some (rf, rt)
        | _, _ => none
      else
        match to_.right, to_.left with
        | some rf, some rt => some (rf, rt)
        | _, _ => none) with
    | none => exact hb2
    | some pr =>
      obtain ⟨rf, rt⟩ := pr
      rcases pair_cases from_ to_ rf rt hpq with
        ⟨hqs, h2f, h7f, rfl, rfl⟩ | ⟨hks, h0f, h7f, rfl, rfl⟩ <;>
      · rw [board_get_update_ne _ _ _ _ (by simp only; omega),
          board_get_update_ne _ _ _ _ (by simp only; omega)]
        exact hb2
  · rw [if_neg hK]
    split_ifs with hep
    · rcases hep with ⟨_, hfile, _⟩
      rw [board_get_update_ne _ _ _ _ (by show from_.rank * 8 + to_.file ≠ from_.val; omega)]
      exact hb2
    · exact hb2

/-- Conjunct (a) of C5: outside the degenerate sideways-pawn case, the moved
piece lands on the destination square. -/
theorem c5aux_reloc (b : Board) (from_ to_ : Position) (pc : Piece)
    (hlen : b.length = 64) (hf : from_.val < 64) (ht : to_.val < 64)
    (hb : b.get from_ = some pc)
    (hdeg : ¬(pc.piece = PieceType.Pawn ∧ from_.file ≠ to_.file ∧
      b.get to_ = none ∧ from_.rank = to_.rank)) :
    (b.move from_ to_).get to_ = some pc := by
  have hfr := position_val_eq from_
  have htr := position_val_eq to_
  have hff := position_file_lt from_
  have htf := position_file_lt to_
  unfold Board.move
  rw [hb]
  simp only
  have hb2 : ((b.update from_ none).update to_ (some pc)).get to_ = some pc := by
    rw [board_get_update_eq _ _ _ (by simp [board_update_length, hlen]; omega)]
  by_cases hK : pc.piece = PieceType.King ∧ Nat.dist from_.file to_.file = 2
  · rw [if_pos hK]
    have hEP : ¬(pc.piece = PieceType.Pawn ∧ from_.file ≠ to_.file ∧
        (b.update from_ none).get to_ = none) := by
      rw [hK.1]; simp
    simp only [if_neg hEP]
    cases hpq : (if to_.file < from_.file then
        match oleft to_.left, to_.right with
        | some rf, some rt => some (rf, rt)
        | _, _ => none
      else
        match to_.right, to_.left with
        | some rf, some rt => some (rf, rt)
        | _, _ => none) with
    | none => exact hb2
    | some pr =>
      obtain ⟨rf, rt⟩ := pr
      rcases pair_cases from_ to_ rf rt hpq with
        ⟨hqs, h2f, h7f, rfl, rfl⟩ | ⟨hks, h0f, h7f, rfl, rfl⟩ <;>
      · rw [board_get_update_ne _ _ _ _ (by simp only; omega),
          board_get_update_ne _ _ _ _ (by simp only; omega)]
        exact hb2
  · rw [if_neg hK]
    split_ifs with hep
    · rcases hep with ⟨hpawn, hfile, hcap⟩
      have hnev : from_.val ≠ to_.val := by omega
      have hcap' : b.get to_ = none := by
        rwa [board_get_update_ne _ _ _ _ hnev] at hcap
      have hrank : from_.rank ≠ to_.rank := fun hr => hdeg ⟨hpawn, hfile, hcap', hr⟩
      rw [board_get_update_ne _ _ _ _ (by show from_.rank * 8 + to_.file ≠ to_.val; omega)]
      exact hb2
    · exact hb2

/-- Conjunct (c) of C5: the en-passant branch empties the square on the
departure rank at the destination file. -/
theorem c5aux_ep (b : Board) (from_ to_ : Position) (pc : Piece)
    (hlen : b.length = 64) (hf : from_.val < 64) (ht : to_.val < 64)
    (hb : b.get from_ = some pc) (hpawn : pc.piece = PieceType.Pawn)
    (hfile : from_.file ≠ to_.file) (hcap : b.get to_ = none) :
    (b.move from_ to_).get (Position.new from_.rank to_.file) = none := by
  have hfr := position_val_eq from_
  have htr := position_val_eq to_
  have hff := position_file_lt from_
  have htf := position_file_lt to_
  have hnev : from_.val ≠ to_.val := by omega
  unfold Board.move
  rw [hb]
  simp only
  have hK : ¬(pc.piece = PieceType.King ∧ Nat.dist from_.file to_.file = 2) := by
    rw [hpawn]; simp
  rw [if_neg hK]
  have hcap2 : (b.update from_ none).get to_ = none := by
    rwa [board_get_update_ne _ _ _ _ hnev]
  rw [if_pos ⟨hpawn, hfile, hcap2⟩]
  have hlt : (Position.new from_.rank to_.file).val <
      ((b.update from_ none).update to_ (some pc)).length := by
    simp only [board_update_length, hlen]
    show from_.rank * 8 + to_.file < 64
    omega
  exact board_get_update_eq _ _ _ hlt

/-- Conjunct (d), queenside: castling from file 4 to file 2 relocates the
occupant of the edge square (file 0) to the square between (file 3). -/
theorem c5aux_castle_q (b : Board) (from_ to_ : Position) (pc rk : Piece)
    (hlen : b.length = 64) (hf : from_.val < 64) (ht : to_.val < 64)
    (hb : b.get from_ = some pc) (hking : pc.piece = PieceType.King)
    (hffile : from_.file = 4) (hrank : to_.rank = from_.rank) (htfile : to_.file = 2)
    (hrook : b.get (Position.new to_.rank 0) = some rk) :
    (b.move from_ to_).get (Position.new to_.rank 0) = none ∧
    (b.move from_ to_).get (Position.new to_.rank 3) = some rk := by
  have hfr := position_val_eq from_
  have htr := position_val_eq to_
  unfold Board.move
  rw [hb]
  simp only
  have hK : pc.piece = PieceType.King ∧ Nat.dist from_.file to_.file = 2 := by
    refine ⟨hking, ?_⟩
    unfold Nat.dist
    omega
  rw [if_pos hK]
  have hEP : ¬(pc.piece = PieceType.Pawn ∧ from_.file ≠ to_.file ∧
      (b.update from_ none).get to_ = none) := by
    rw [hking]; simp
  simp only [if_neg hEP]
  have hpair : (if to_.file < from_.file then
      match oleft to_.left, to_.right with
      | some rf, some rt => some (rf, rt)
      | _, _ => none
    else
      match to_.right, to_.left with
      | some rf, some rt => some (rf, rt)
      | _, _ => none) = some (⟨to_.val - 2⟩, ⟨to_.val + 1⟩) := by
    rw [if_pos (by omega)]
    have hstep1 : to_.left = some ⟨to_.val - 1⟩ := by
      unfold Position.left
      rw [if_pos (by omega)]
    have hstep2 : (⟨to_.val - 1⟩ : Position).left = some ⟨to_.val - 2⟩ := by
      unfold Position.left
      rw [if_pos (by show 0 < (to_.val - 1) % 8; omega)]
      simp only [Option.some.injEq, Position.mk.injEq]
      omega
    have hstep3 : to_.right = some ⟨to_.val + 1⟩ := by
      unfold Position.right
      rw [if_pos (by omega)]
    rw [hstep1, hstep3]
    simp only [oleft, Option.some_bind, hstep2]
  rw [hpair]
  have hcorner : Position.new to_.rank 0 = (⟨to_.val - 2⟩ : Position) := by
    simp only [Position.new, Position.mk.injEq]
    omega
  have hmid : Position.new to_.rank 3 = (⟨to_.val + 1⟩ : Position) := by
    simp only [Position.new, Position.mk.injEq]
    omega
  have hlen2 : ((b.update from_ none).update to_ (some pc)).length = 64 := by
    simp [board_update_length, hlen]
  have hget_rf : ((b.update from_ none).update to_ (some pc)).get ⟨to_.val - 2⟩ = some rk := by
    rw [board_get_update_ne _ _ _ _ (by simp only; omega),
      board_get_update_ne _ _ _ _ (by simp only; omega)]
    rw [← hcorner] at *
    exact hrook
  constructor
  · rw [hcorner]
    rw [board_get_update_ne _ _ _ _ (by simp only; omega)]
    rw [board_get_update_eq _ _ _ (by simp only [board_update_length, hlen2]; omega)]
  · rw [hmid]
    rw [board_get_update_eq _ _ _
      (by simp only [board_update_length, hlen2]; omega)]
    exact hget_rf

/-- Conjunct (d), kingside: castling from file 4 to file 6 relocates the
occupant of the edge square (file 7) to the square between (file 5). -/
theorem c5aux_castle_k (b : Board) (from_ to_ : Position) (pc rk : Piece)
    (hlen : b.length = 64) (hf : from_.val < 64) (ht : to_.val < 64)
    (hb : b.get from_ = some pc) (hking : pc.piece = PieceType.King)
    (hffile : from_.file = 4) (hrank : to_.rank = from_.rank) (htfile : to_.file = 6)
    (hrook : b.get (Position.new to_.rank 7) = some rk) :
    (b.move from_ to_).get (Position.new to_.rank 7) = none ∧
    (b.move from_ to_).get (Position.new to_.rank 5) = some rk := by
  have hfr := position_val_eq from_
  have htr := position_val_eq to_
  unfold Board.move
  rw [hb]
  simp only
  have hK : pc.piece = PieceType.King ∧ Nat.dist from_.file to_.file = 2 := by
    refine ⟨hking, ?_⟩
    unfold Nat.dist
    omega
  rw [if_pos hK]
  have hEP : ¬(pc.piece = PieceType.Pawn ∧ from_.file ≠ to_.file ∧
      (b.update from_ none).get to_ = none) := by
    rw [hking]; simp
  simp only [if_neg hEP]
  have hpair : (if to_.file < from_.file then
      match oleft to_.left, to_.right with
      | some rf, some rt => some (rf, rt)
      | _, _ => none
    else
      match to_.right, to_.left with
      | some rf, some rt => some (rf, rt)
      | _, _ => none) = some (⟨to_.val + 1⟩, ⟨to_.val - 1⟩) := by
    rw [if_neg (by omega)]
    have hstep1 : to_.right = some ⟨to_.val + 1⟩ := by
      unfold Position.right
      rw [if_pos (by omega)]
    have hstep2 : to_.left = some ⟨to_.val - 1⟩ := by
      unfold Position.left
      rw [if_pos (by omega)]
    rw [hstep1, hstep2]
  rw [hpair]
  have hcorner : Position.new to_.rank 7 = (⟨to_.val + 1⟩ : Position) := by
    simp only [Position.new, Position.mk.injEq]
    omega
  have hmid : Position.new to_.rank 5 = (⟨to_.val - 1⟩ : Position) := by
    simp only [Position.new, Position.mk.injEq]
    omega
  have hlen2 : ((b.update from_ none).update to_ (some pc)).length = 64 := by
    simp [board_update_length, hlen]
  have hget_rf : ((b.update from_ none).update to_ (some pc)).get ⟨to_.val + 1⟩ = some rk := by
    rw [board_get_update_ne _ _ _ _ (by simp only; omega),
      board_get_update_ne _ _ _ _ (by simp only; omega)]
    rw [← hcorner] at *
    exact hrook
  constructor
  · rw [hcorner]
    rw [board_get_update_ne _ _ _ _ (by simp only; omega)]
    rw [board_get_update_eq _ _ _ (by simp only [board_update_length, hlen2]; omega)]
  · rw [hmid]
    rw [board_get_update_eq _ _ _
      (by simp only [board_update_length, hlen2]; omega)]
    exact hget_rf

/-- C5 counterexample: the claim's unconditional relocation conjunct fails.
On a board with a lone white pawn on a2, `Board::r#move(a2, b2)` (a sideways
pawn move to an empty square of the same rank) triggers the en-passant branch
with removal square equal to the destination itself, so the pawn vanishes
instead of landing on b2. -/
theorem c5_relocation_counterexample :
    sidewaysPawnBoard.get ⟨8⟩ = some ⟨PieceColor.White, PieceType.Pawn⟩ ∧
      (sidewaysPawnBoard.move ⟨8⟩ ⟨9⟩).get ⟨9⟩ = none := by
  refine ⟨by decide, by decide⟩

/-- C5 (amended): for a 64-square board with a piece at `from` (both squares
on the board), `Board::r#move(from, to)`
(a) puts that piece on `to` — except in the degenerate sideways-pawn case
    where the en-passant removal square coincides with `to`;
(b) empties `from`;
(c) if the piece is a pawn, the files differ and `to` was empty, empties the
    square on the departure rank at the destination file; and
(d) if the piece is a king leaving file 4 two files sideways on one rank, the
    occupant (the rook, in play) of the corresponding edge square is relocated
    to the square between the king's `from` and `to` files. -/
theorem c5_board_move_effects (b : Board) (from_ to_ : Position) (pc : Piece)
    (hlen : b.length = 64) (hf : from_.val < 64) (ht : to_.val < 64)
    (hb : b.get from_ = some pc) :
    (¬(pc.piece = PieceType.Pawn ∧ from_.file ≠ to_.file ∧
        b.get to_ = none ∧ from_.rank = to_.rank) →
      (b.move from_ to_).get to_ = some pc) ∧
    (from_ ≠ to_ → (b.move from_ to_).get from_ = none) ∧
    (pc.piece = PieceType.Pawn → from_.file ≠ to_.file → b.get to_ = none →
      (b.move from_ to_).get (Position.new from_.rank to_.file) = none) ∧
    (∀ rk : Piece, pc.piece = PieceType.King → from_.file = 4 →
      to_.rank = from_.rank → to_.file = 2 →
      b.get (Position.new to_.rank 0) = some rk →
      (b.move from_ to_).get (Position.new to_.rank 0) = none ∧
      (b.move from_ to_).get (Position.new to_.rank 3) = some rk) ∧
    (∀ rk : Piece, pc.piece = PieceType.King → from_.file = 4 →
      to_.rank = from_.rank → to_.file = 6 →
      b.get (Position.new to_.rank 7) = some rk →
      (b.move from_ to_).get (Position.new to_.rank 7) = none ∧
      (b.move from_ to_).get (Position.new to_.rank 5) = some rk) :=
  ⟨fun hdeg => c5aux_reloc b from_ to_ pc hlen hf ht hb hdeg,
   fun hne => c5aux_source b from_ to_ pc hlen hf ht hb hne,
   fun hpawn hfile hcap => c5aux_ep b from_ to_ pc hlen hf ht hb hpawn hfile hcap,
   fun rk hking hffile hrank htfile hrook =>
     c5aux_castle_q b from_ to_ pc rk hlen hf ht hb hking hffile hrank htfile hrook,
   fun rk hking hffile hrank htfile hrook =>
     c5aux_castle_k b from_ to_ pc rk hlen hf ht hb hking hffile hrank htfile hrook⟩

/-- Witness for the amended C5 at a concrete input: queenside castling on a
board with a king on e1 and rook on a1 empties a1 and puts the rook on d1. -/
theorem c5_board_move_effects_witness :
    (castleBoard.move ⟨4⟩ ⟨2⟩).get (Position.new 0 0) = none ∧
    (castleBoard.move ⟨4⟩ ⟨2⟩).get (Position.new 0 3) =
      some ⟨PieceColor.White, PieceType.Rook⟩ :=
  (c5_board_move_effects castleBoard ⟨4⟩ ⟨2⟩ ⟨PieceColor.White, PieceType.King⟩
      (by decide) (by decide) (by decide) (by decide)).2.2.2.1
    ⟨PieceColor.White, PieceType.Rook⟩ rfl (by decide) (by decide) (by decide)
    (by decide)

/-- `updateBest` either installs the new candidate or keeps the accumulator. -/
theorem updateBest_shape (strict : Evaluation → Evaluation → Bool) (m : Move)
    (e : Evaluation) (best : Option (Move × Evaluation)) :
    updateBest strict m e best = some (m, e) ∨ updateBest strict m e best = best := by
  cases best with
  | none => exact Or.inl rfl
  | some pr =>
    obtain ⟨m₀, b⟩ := pr
    simp only [updateBest]
    split_ifs
    · exact Or.inl rfl
    · exact Or.inr rfl

/-- `updateBest` never yields `none`. -/
theorem updateBest_some (strict : Evaluation → Evaluation → Bool) (m : Move)
    (e : Evaluation) (best : Option (Move × Evaluation)) :
    ∃ pr, updateBest strict m e best = some pr := by
  cases best with
  | none => exact ⟨(m, e), rfl⟩
  | some pr =>
    obtain ⟨m₀, b⟩ := pr
    simp only [updateBest]
    split_ifs
    · exact ⟨(m, e), rfl⟩
    · exact ⟨(m₀, b), rfl⟩

/-- Any result of the `minimax` loop is either one of the iterated candidates
or carried in from the starting accumulator. -/
theorem searchLoop_mem (turn : PieceColor)
    (eval : Move → Evaluation → Evaluation → Evaluation) :
    ∀ (l : List Move) (best : Option (Move × Evaluation)) (alpha beta : Evaluation)
      (m : Move) (e : Evaluation),
      searchLoop turn eval l best alpha beta = some (m, e) →
      m ∈ l ∨ ∃ e₀, best = some (m, e₀) := by
  intro l
  induction l with
  | nil =>
    intro best alpha beta m e h
    simp only [searchLoop] at h
    exact Or.inr ⟨e, h⟩
  | cons hd tl ih =>
    intro best alpha beta m e h
    simp only [searchLoop] at h
    have key : ∀ e' : Evaluation,
        updateBest (strictFor turn) hd e' best = some (m, e) →
        m ∈ hd :: tl ∨ ∃ e₀, best = some (m, e₀) := by
      intro e' hup
      rcases updateBest_shape (strictFor turn) hd e' best with hsh | hsh
      · rw [hsh] at hup
        obtain ⟨rfl, rfl⟩ := Prod.mk.injEq .. ▸ Option.some_injective _ hup
        exact Or.inl (List.mem_cons_self _ _)
      · rw [hsh] at hup
        exact Or.inr ⟨e, hup⟩
    have keyRec : ∀ (e' : Evaluation) (alpha' beta' : Evaluation),
        searchLoop turn eval tl (updateBest (strictFor turn) hd e' best)
          alpha' beta' = some (m, e) →
        m ∈ hd :: tl ∨ ∃ e₀, best = some (m, e₀) := by
      intro e' alpha' beta' hrec
      rcases ih _ _ _ m e hrec with hm | ⟨e₀, he₀⟩
      · exact Or.inl (List.mem_cons_of_mem _ hm)
      · rcases updateBest_shape (strictFor turn) hd e' best with hsh | hsh
        · rw [hsh] at he₀
          obtain ⟨rfl, _⟩ := Prod.mk.injEq .. ▸ Option.some_injective _ he₀
          exact Or.inl (List.mem_cons_self _ _)
        · rw [hsh] at he₀
          exact Or.inr ⟨e₀, he₀⟩
    cases turn with
    | White =>
      simp only at h
      split at h
      · exact key _ h
      · exact keyRec _ _ _ h
    | Black =>
      simp only at h
      split at h
      · exact key _ h
      · exact keyRec _ _ _ h

/-- The `minimax` loop only returns `none` on an empty candidate list with an
empty accumulator (the source would panic there). -/
theorem searchLoop_none (turn : PieceColor)
    (eval : Move → Evaluation → Evaluation → Evaluation) :
    ∀ (l : List Move) (best : Option (Move × Evaluation)) (alpha beta : Evaluation),
      searchLoop turn eval l best alpha beta = none → l = [] ∧ best = none := by
  intro l
  induction l with
  | nil =>
    intro best alpha beta h
    simp only [searchLoop] at h
    exact ⟨rfl, h⟩
  | cons hd tl ih =>
    intro best alpha beta h
    exfalso
    simp only [searchLoop] at h
    have key : ∀ e' : Evaluation, updateBest (strictFor turn) hd e' best ≠ none := by
      intro e' hup
      obtain ⟨pr, hpr⟩ := updateBest_some (strictFor turn) hd e' best
      rw [hpr] at hup
      exact Option.noConfusion hup
    cases turn with
    | White =>
      simp only at h
      split at h
      · exact key _ h
      · exact key _ (ih _ _ _ h).2
    | Black =>
      simp only at h
      split at h
      · exact key _ h
      · exact key _ (ih _ _ _ h).2

/-- Unpacking membership in the expanded candidate list of `minimax`. -/
theorem candidates_mem {dbg : Bool} {g : Game} {m : Move}
    (h : m ∈ candidates dbg g) :
    (∃ f t, m = Move.Move f t ∧ legalB dbg g f t = true ∧
      g.is_promotion f t = false) ∨
    (∃ f t pt, m = Move.Promote f t pt ∧ legalB dbg g f t = true ∧
      g.is_promotion f t = true ∧ pt ∈ PROMOTIONS) := by
  unfold candidates at h
  rw [List.mem_flatMap] at h
  obtain ⟨ft, hft, hm⟩ := h
  rw [List.mem_flatMap] at hft
  obtain ⟨fl, hfl, hpair⟩ := hft
  rw [List.mem_map] at hpair
  obtain ⟨t, hmem, rfl⟩ := hpair
  have hlegal : legalB dbg g fl.1 t = true := by
    unfold legalB
    rw [List.any_eq_true]
    refine ⟨fl, hfl, ?_⟩
    rw [Bool.and_eq_true, decide_eq_true_iff]
    exact ⟨rfl, List.elem_eq_true_of_mem hmem⟩
  by_cases hp : g.is_promotion fl.1 t = true
  · rw [if_pos hp] at hm
    rw [List.mem_map] at hm
    obtain ⟨pt, hpt, rfl⟩ := hm
    exact Or.inr ⟨fl.1, t, pt, rfl, hlegal, hp, hpt⟩
  · rw [if_neg hp] at hm
    rw [List.mem_singleton] at hm
    subst hm
    exact Or.inl ⟨fl.1, t, rfl, hlegal, Bool.not_eq_true _ ▸ hp⟩

/-- C4: on a game with at least one legal move, `choose` returns a move drawn
from `Game::moves` (with a `PROMOTIONS` piece type when it is a promotion);
on a game with zero legal moves the source panics, which the model renders as
`none`. -/
theorem c4_choose_in_generated_moves :
    (∀ (dbg : Bool) (g : Game) (depth : Nat), candidates dbg g ≠ [] →
      ∃ m : Move, choose dbg g depth = some m ∧
        ((∃ f t, m = Move.Move f t ∧ legalB dbg g f t = true ∧
          g.is_promotion f t = false) ∨
         (∃ f t pt, m = Move.Promote f t pt ∧ legalB dbg g f t = true ∧
           g.is_promotion f t = true ∧ pt ∈ PROMOTIONS))) ∧
    (∀ (dbg : Bool) (g : Game) (depth : Nat), candidates dbg g = [] →
      choose dbg g depth = none) := by
  constructor
  · intro dbg g depth hne
    cases hres : minimax dbg depth g Evaluation.MIN Evaluation.MAX with
    | none =>
      exfalso
      unfold minimax at hres
      exact hne (searchLoop_none _ _ _ _ _ _ hres).1
    | some pr =>
      obtain ⟨m, e⟩ := pr
      refine ⟨m, by unfold choose; rw [hres]; rfl, ?_⟩
      have hmem : m ∈ candidates dbg g := by
        unfold minimax at hres
        rcases searchLoop_mem _ _ _ _ _ _ _ _ hres with hm | ⟨e₀, he₀⟩
        · exact hm
        · exact Option.noConfusion he₀
      exact candidates_mem hmem
  · intro dbg g depth hempty
    unfold choose minimax
    rw [hempty]
    rfl

/-- Witness for C4 at a concrete input: from the initial position at depth 0,
`choose` returns a generated move. -/
theorem c4_choose_in_generated_moves_witness :
    ∃ m : Move, choose true Game.new 0 = some m ∧
      ((∃ f t, m = Move.Move f t ∧ legalB true Game.new f t = true ∧
        Game.new.is_promotion f t = false) ∨
       (∃ f t pt, m = Move.Promote f t pt ∧ legalB true Game.new f t = true ∧
         Game.new.is_promotion f t = true ∧ pt ∈ PROMOTIONS)) :=
  c4_choose_in_generated_moves.1 true Game.new 0 (by decide)

theorem cmp_eq_of_le_le {a b : Evaluation} (h1 : Evaluation.le a b)
    (h2 : Evaluation.le b a) : Evaluation.cmp a b = Ordering.eq := by
  rw [le_iff] at h1 h2
  rw [cmp_eq_iff]
  omega

theorem gtb_false_iff (a b : Evaluation) :
    Evaluation.gtb a b = false ↔ Evaluation.le a b := by
  rw [← Bool.not_eq_true, gtb_iff, not_lt_iff_le]

theorem ltb_false_iff (a b : Evaluation) :
    Evaluation.ltb a b = false ↔ Evaluation.le b a := by
  rw [← Bool.not_eq_true, ltb_iff, not_lt_iff_le]

theorem gtb_false_of_not {a b : Evaluation} (h : ¬ Evaluation.gtb a b = true) :
    Evaluation.le a b :=
  (gtb_false_iff a b).mp (Bool.not_eq_true _ ▸ h)

theorem ltb_false_of_not {a b : Evaluation} (h : ¬ Evaluation.ltb a b = true) :
    Evaluation.le b a :=
  (ltb_false_iff a b).mp (Bool.not_eq_true _ ▸ h)

theorem windowSound_refl (E a b : Evaluation) : WindowSound E E a b :=
  ⟨fun _ => eval_le_refl E, fun _ _ => rfl, fun _ => eval_le_refl E⟩

/-- The plain White loop returns a value at least its starting accumulator. -/
theorem plainLoopW_ge (pval : Move → Evaluation) :
    ∀ (l : List Move) (m : Move) (v : Evaluation),
      ∃ mf vf, plainLoop PieceColor.White pval l (some (m, v)) = some (mf, vf) ∧
        Evaluation.le v vf := by
  intro l
  induction l with
  | nil =>
    intro m v
    exact ⟨m, v, rfl, eval_le_refl v⟩
  | cons hd tl ih =>
    intro m v
    simp only [plainLoop, strictFor, updateBest]
    by_cases hgt : Evaluation.gtb (pval hd) v
    · rw [if_pos hgt]
      obtain ⟨mf, vf, hres, hle⟩ := ih hd (pval hd)
      exact ⟨mf, vf, hres, eval_le_trans (eval_le_of_lt ((gtb_iff _ _).mp hgt)) hle⟩
    · rw [if_neg hgt]
      exact ih m v

/-- The plain Black loop returns a value at most its starting accumulator. -/
theorem plainLoopB_le (pval : Move → Evaluation) :
    ∀ (l : List Move) (m : Move) (v : Evaluation),
      ∃ mf vf, plainLoop PieceColor.Black pval l (some (m, v)) = some (mf, vf) ∧
        Evaluation.le vf v := by
  intro l
  induction l with
  | nil =>
    intro m v
    exact ⟨m, v, rfl, eval_le_refl v⟩
  | cons hd tl ih =>
    intro m v
    simp only [plainLoop, strictFor, updateBest]
    by_cases hlt : Evaluation.ltb (pval hd) v
    · rw [if_pos hlt]
      obtain ⟨mf, vf, hres, hle⟩ := ih hd (pval hd)
      exact ⟨mf, vf, hres, eval_le_trans hle (eval_le_of_lt ((ltb_iff _ _).mp hlt))⟩
    · rw [if_neg hlt]
      exact ih m v

/-- The pruned White loop returns a value at least its starting accumulator. -/
theorem searchLoopW_ge (eval : Move → Evaluation → Evaluation → Evaluation) :
    ∀ (l : List Move) (m : Move) (v : Evaluation) (alpha beta : Evaluation),
      ∃ mf vf, searchLoop PieceColor.White eval l (some (m, v)) alpha beta =
        some (mf, vf) ∧ Evaluation.le v vf := by
  intro l
  induction l with
  | nil =>
    intro m v alpha beta
    exact ⟨m, v, rfl, eval_le_refl v⟩
  | cons hd tl ih =>
    intro m v alpha beta
    simp only [searchLoop, updateBest]
    by_cases hgt : Evaluation.gtb (eval hd alpha beta) v
    · rw [if_pos hgt]
      have hlev : Evaluation.le v (eval hd alpha beta) :=
        eval_le_of_lt ((gtb_iff _ _).mp hgt)
      by_cases hbr : Evaluation.gtb (eval hd alpha beta) beta
      · rw [if_pos hbr]
        exact ⟨hd, eval hd alpha beta, rfl, hlev⟩
      · rw [if_neg hbr]
        obtain ⟨mf, vf, hres, hge⟩ := ih hd (eval hd alpha beta) _ beta
        exact ⟨mf, vf, hres, eval_le_trans hlev hge⟩
    · rw [if_neg hgt]
      by_cases hbr : Evaluation.gtb (eval hd alpha beta) beta
      · rw [if_pos hbr]
        exact ⟨m, v, rfl, eval_le_refl v⟩
      · rw [if_neg hbr]
        exact ih m v _ beta

/-- The pruned Black loop returns a value at most its starting accumulator. -/
theorem searchLoopB_le (eval : Move → Evaluation → Evaluation → Evaluation) :
    ∀ (l : List Move) (m : Move) (v : Evaluation) (alpha beta : Evaluation),
      ∃ mf vf, searchLoop PieceColor.Black eval l (some (m, v)) alpha beta =
        some (mf, vf) ∧ Evaluation.le vf v := by
  intro l
  induction l with
  | nil =>
    intro m v alpha beta
    exact ⟨m, v, rfl, eval_le_refl v⟩
  | cons hd tl ih =>
    intro m v alpha beta
    simp only [searchLoop, updateBest]
    by_cases hlt : Evaluation.ltb (eval hd alpha beta) v
    · rw [if_pos hlt]
      have hlev : Evaluation.le (eval hd alpha beta) v :=
        eval_le_of_lt ((ltb_iff _ _).mp hlt)
      by_cases hbr : Evaluation.ltb (eval hd alpha beta) alpha
      · rw [if_pos hbr]
        exact ⟨hd, eval hd alpha beta, rfl, hlev⟩
      · rw [if_neg hbr]
        obtain ⟨mf, vf, hres, hge⟩ := ih hd (eval hd alpha beta) alpha _
        exact ⟨mf, vf, hres, eval_le_trans hge hlev⟩
    · rw [if_neg hlt]
      by_cases hbr : Evaluation.ltb (eval hd alpha beta) alpha
      · rw [if_pos hbr]
        exact ⟨m, v, rfl, eval_le_refl v⟩
      · rw [if_neg hbr]
        exact ih m v alpha _

/-- The window trichotomy survives lowering `alpha` back to an earlier value,
provided the result value is known to dominate the raised `alpha`. -/
theorem resultRel_lower_alpha {alpha alphaR beta : Evaluation}
    {F P : Option (Move × Evaluation)}
    (hle : Evaluation.le alpha alphaR)
    (hF : alphaR = alpha ∨ ∀ mv vF, F = some (mv, vF) → Evaluation.le alphaR vF)
    (h : ResultRel alphaR beta F P) : ResultRel alpha beta F P := by
  cases F with
  | none =>
    cases P with
    | none => trivial
    | some pr => exact h.elim
  | some pr =>
    obtain ⟨mv, vF⟩ := pr
    cases P with
    | none => exact h.elim
    | some prP =>
      obtain ⟨mvP, vM⟩ := prP
      obtain ⟨h1, h2, h3⟩ := h
      refine ⟨fun hlow => h1 ?_, fun ha hb => ?_, h3⟩
      · exact eval_lt_of_lt_of_le hlow hle
      · rcases hF with rfl | hF
        · exact h2 ha hb
        · exact h2 (hF mv vF rfl) hb

/-- The window trichotomy survives raising `beta` back to an earlier value,
provided the result value is known to stay below the lowered `beta`. -/
theorem resultRel_raise_beta {alpha beta betaR : Evaluation}
    {F P : Option (Move × Evaluation)}
    (hle : Evaluation.le betaR beta)
    (hF : betaR = beta ∨ ∀ mv vF, F = some (mv, vF) → Evaluation.le vF betaR)
    (h : ResultRel alpha betaR F P) : ResultRel alpha beta F P := by
  cases F with
  | none =>
    cases P with
    | none => trivial
    | some pr => exact h.elim
  | some pr =>
    obtain ⟨mv, vF⟩ := pr
    cases P with
    | none => exact h.elim
    | some prP =>
      obtain ⟨mvP, vM⟩ := prP
      obtain ⟨h1, h2, h3⟩ := h
      refine ⟨h1, fun ha hb => ?_, fun hhigh => h3 ?_⟩
      · rcases hF with rfl | hF
        · exact h2 ha hb
        · exact h2 ha (hF mv vF rfl)
      · exact eval_lt_of_le_of_lt hle hhigh

/-- Fail-soft soundness of the pruned White loop against the plain White loop:
starting from related accumulators, the finished results are related by the
window trichotomy. -/
theorem searchLoopW_sound (eval : Move → Evaluation → Evaluation → Evaluation)
    (pval : Move → Evaluation) (beta : Evaluation) :
    ∀ (l : List Move) (alpha : Evaluation)
      (best bestP : Option (Move × Evaluation)),
      Evaluation.le alpha beta →
      (∀ m ∈ l, ∀ a b, Evaluation.le a b → WindowSound (eval m a b) (pval m) a b) →
      AccumRelW alpha best bestP →
      ResultRel alpha beta (searchLoop PieceColor.White eval l best alpha beta)
        (plainLoop PieceColor.White pval l bestP) := by
  intro l
  induction l with
  | nil =>
    intro alpha best bestP hab hH hacc
    simp only [searchLoop, plainLoop]
    cases best with
    | none =>
      cases bestP with
      | none => trivial
      | some prP => obtain ⟨mvP, vP⟩ := prP; exact hacc.elim
    | some pr =>
      obtain ⟨mv, v⟩ := pr
      cases bestP with
      | none => exact hacc.elim
      | some prP =>
        obtain ⟨mvP, vP⟩ := prP
        obtain ⟨hva, hpv, hsync⟩ := hacc
        refine ⟨fun _ => hpv, fun h1 _ => hsync (cmp_eq_of_le_le hva h1), fun hbv => ?_⟩
        exfalso
        have h1 := eval_le_trans hva hab
        rw [le_iff] at h1
        rw [lt_iff] at hbv
        omega
  | cons hd tl ih =>
    intro alpha best bestP hab hH hacc
    obtain ⟨hS1, hS2, hS3⟩ := hH hd (List.mem_cons_self _ _) alpha beta hab
    have hHtl : ∀ m ∈ tl, ∀ a b, Evaluation.le a b →
        WindowSound (eval m a b) (pval m) a b :=
      fun m hm => hH m (List.mem_cons_of_mem _ hm)
    simp only [searchLoop, plainLoop, strictFor]
    by_cases hbr : Evaluation.gtb (eval hd alpha beta) beta
    · -- beta cutoff: the pruned loop stops with the breaking child's value,
      -- which the plain final value dominates from above.
      rw [if_pos hbr]
      have hbe : Evaluation.lt beta (eval hd alpha beta) := (gtb_iff _ _).mp hbr
      have hemP : Evaluation.le (eval hd alpha beta) (pval hd) := hS3 hbe
      have hgoal : ∀ (mq : Move) (vq : Evaluation),
          Evaluation.le (eval hd alpha beta) vq →
          ResultRel alpha beta (some (hd, eval hd alpha beta))
            (plainLoop PieceColor.White pval tl (some (mq, vq))) := by
        intro mq vq hqe
        obtain ⟨mf, vf, hres, hle⟩ := plainLoopW_ge pval tl mq vq
        rw [hres]
        refine ⟨fun hlow => ?_, fun _ h2 => ?_, fun _ => eval_le_trans hqe hle⟩
        · exfalso
          rw [lt_iff] at hlow hbe
          rw [le_iff] at hab
          omega
        · exfalso
          rw [le_iff] at h2
          rw [lt_iff] at hbe
          omega
      cases best with
      | none =>
        cases bestP with
        | none =>
          simp only [updateBest]
          exact hgoal hd (pval hd) hemP
        | some prP => obtain ⟨mvP, vP⟩ := prP; exact hacc.elim
      | some pr =>
        obtain ⟨mv, v⟩ := pr
        cases bestP with
        | none => exact hacc.elim
        | some prP =>
          obtain ⟨mP₀, vP⟩ := prP
          obtain ⟨hva, hpv, hsync⟩ := hacc
          have hgtv : Evaluation.gtb (eval hd alpha beta) v = true := by
            rw [gtb_iff]
            have h1 := eval_le_trans hva hab
            rw [le_iff] at h1
            rw [lt_iff] at hbe ⊢
            omega
          simp only [updateBest]
          rw [if_pos hgtv]
          by_cases hpgt : Evaluation.gtb (pval hd) vP
          · rw [if_pos hpgt]
            exact hgoal hd (pval hd) hemP
          · rw [if_neg hpgt]
            exact hgoal mP₀ vP (eval_le_trans hemP (gtb_false_of_not hpgt))
    · -- no cutoff: step both accumulators and recurse.
      rw [if_neg hbr]
      have hbe : Evaluation.le (eval hd alpha beta) beta := gtb_false_of_not hbr
      have hab' : Evaluation.le
          (if Evaluation.gtb (eval hd alpha beta) alpha = true then eval hd alpha beta
            else alpha) beta := by
        split_ifs with h
        · exact hbe
        · exact hab
      have hlealpha : Evaluation.le alpha
          (if Evaluation.gtb (eval hd alpha beta) alpha = true then eval hd alpha beta
            else alpha) := by
        split_ifs with h
        · exact eval_le_of_lt ((gtb_iff _ _).mp h)
        · exact eval_le_refl _
      have hF : (if Evaluation.gtb (eval hd alpha beta) alpha = true
            then eval hd alpha beta else alpha) = alpha ∨
          ∀ mv vF, searchLoop PieceColor.White eval tl (some (hd, eval hd alpha beta))
            (if Evaluation.gtb (eval hd alpha beta) alpha = true then eval hd alpha beta
              else alpha) beta = some (mv, vF) →
            Evaluation.le (if Evaluation.gtb (eval hd alpha beta) alpha = true
              then eval hd alpha beta else alpha) vF := by
        by_cases hra : Evaluation.gtb (eval hd alpha beta) alpha
        · right
          intro mv vF hvF
          obtain ⟨mf, vf, hres, hge⟩ := searchLoopW_ge eval tl hd (eval hd alpha beta)
            (if Evaluation.gtb (eval hd alpha beta) alpha = true then eval hd alpha beta
              else alpha) beta
          rw [hres] at hvF
          obtain ⟨_, hvv⟩ := Prod.mk.injEq .. ▸ Option.some_injective _ hvF
          subst hvv
          rw [if_pos hra]
          exact hge
        · left
          rw [if_neg hra]
      by_cases hlow : Evaluation.lt (eval hd alpha beta) alpha
      · -- fail-low child: `alpha` does not move.
        have halpha : (if Evaluation.gtb (eval hd alpha beta) alpha = true
            then eval hd alpha beta else alpha) = alpha := by
          rw [if_neg]
          rw [gtb_iff, not_lt_iff_le]
          exact eval_le_of_lt hlow
        rw [halpha]
        have hmPe : Evaluation.le (pval hd) (eval hd alpha beta) := hS1 hlow
        cases best with
        | none =>
          cases bestP with
          | none =>
            simp only [updateBest]
            refine ih _ _ _ hab hHtl ⟨eval_le_of_lt hlow, hmPe, fun hq => ?_⟩
            exfalso
            rw [cmp_eq_iff] at hq
            rw [lt_iff] at hlow
            omega
          | some prP => obtain ⟨mvP, vP⟩ := prP; exact hacc.elim
        | some pr =>
          obtain ⟨mv, v⟩ := pr
          cases bestP with
          | none => exact hacc.elim
          | some prP =>
            obtain ⟨mP₀, vP⟩ := prP
            obtain ⟨hva, hpv, hsync⟩ := hacc
            simp only [updateBest]
            by_cases hgt : Evaluation.gtb (eval hd alpha beta) v
            · rw [if_pos hgt]
              have hve : Evaluation.lt v (eval hd alpha beta) := (gtb_iff _ _).mp hgt
              by_cases hpgt : Evaluation.gtb (pval hd) vP
              · rw [if_pos hpgt]
                refine ih _ _ _ hab hHtl ⟨eval_le_of_lt hlow, hmPe, fun hc => ?_⟩
                exfalso
                rw [cmp_eq_iff] at hc
                rw [lt_iff] at hlow
                omega
              · rw [if_neg hpgt]
                refine ih _ _ _ hab hHtl ⟨eval_le_of_lt hlow,
                  eval_le_trans hpv (eval_le_of_lt hve), fun hc => ?_⟩
                exfalso
                rw [cmp_eq_iff] at hc
                rw [lt_iff] at hlow
                omega
            · rw [if_neg hgt]
              have hev : Evaluation.le (eval hd alpha beta) v := gtb_false_of_not hgt
              by_cases hpgt : Evaluation.gtb (pval hd) vP
              · rw [if_pos hpgt]
                refine ih _ _ _ hab hHtl ⟨hva, eval_le_trans hmPe hev, fun hc => ?_⟩
                -- `v` compares equal to `alpha` while the child fails low, so
                -- the plain best `vP = v` cannot be beaten by
                -- `pval hd ≤ e < alpha`.
                exfalso
                have hvPv := hsync hc
                subst hvPv
                have hplt := (gtb_iff _ _).mp hpgt
                rw [lt_iff] at hplt hlow
                rw [le_iff] at hmPe
                rw [cmp_eq_iff] at hc
                omega
              · rw [if_neg hpgt]
                exact ih _ _ _ hab hHtl ⟨hva, hpv, hsync⟩
      · -- in-window child: the plain child value is literally the pruned one,
        -- and the two accumulators stay in lockstep.
        have hae : Evaluation.le alpha (eval hd alpha beta) := (not_lt_iff_le _ _).mp hlow
        have hlit : pval hd = eval hd alpha beta := hS2 hae hbe
        have halphaR1 : Evaluation.le (eval hd alpha beta)
            (if Evaluation.gtb (eval hd alpha beta) alpha = true
              then eval hd alpha beta else alpha) := by
          split_ifs with h
          · exact eval_le_refl _
          · exact gtb_false_of_not h
        have haccstep : AccumRelW
            (if Evaluation.gtb (eval hd alpha beta) alpha = true
              then eval hd alpha beta else alpha)
            (some (hd, eval hd alpha beta)) (some (hd, pval hd)) :=
          ⟨halphaR1, hlit ▸ eval_le_refl _, fun _ => hlit⟩
        cases best with
        | none =>
          cases bestP with
          | none =>
            simp only [updateBest]
            exact resultRel_lower_alpha hlealpha hF (ih _ _ _ hab' hHtl haccstep)
          | some prP => obtain ⟨mvP, vP⟩ := prP; exact hacc.elim
        | some pr =>
          obtain ⟨mv, v⟩ := pr
          cases bestP with
          | none => exact hacc.elim
          | some prP =>
            obtain ⟨mP₀, vP⟩ := prP
            obtain ⟨hva, hpv, hsync⟩ := hacc
            simp only [updateBest]
            by_cases hgt : Evaluation.gtb (eval hd alpha beta) v
            · rw [if_pos hgt]
              have hve : Evaluation.lt v (eval hd alpha beta) := (gtb_iff _ _).mp hgt
              have hpBP : Evaluation.gtb (pval hd) vP = true := by
                rw [hlit, gtb_iff]
                exact eval_lt_of_le_of_lt hpv hve
              rw [if_pos hpBP]
              exact resultRel_lower_alpha hlealpha hF (ih _ _ _ hab' hHtl haccstep)
            · rw [if_neg hgt]
              have hev : Evaluation.le (eval hd alpha beta) v := gtb_false_of_not hgt
              -- alpha ≤ e ≤ v ≤ alpha: everything compares equal here.
              have hsyncv : vP = v :=
                hsync (cmp_eq_of_le_le hva (eval_le_trans hae hev))
              have hpBP : ¬ Evaluation.gtb (pval hd) vP = true := by
                rw [hlit, hsyncv, gtb_iff, not_lt_iff_le]
                exact hev
              rw [if_neg hpBP]
              have halpha : (if Evaluation.gtb (eval hd alpha beta) alpha = true
                  then eval hd alpha beta else alpha) = alpha := by
                rw [if_neg]
                rw [gtb_iff, not_lt_iff_le]
                exact eval_le_trans hev hva
              rw [halpha]
              exact ih _ _ _ hab hHtl ⟨hva, hpv, hsync⟩

/-- Fail-soft soundness of the pruned Black loop against the plain Black loop:
mirror of `searchLoopW_sound`. -/
theorem searchLoopB_sound (eval : Move → Evaluation → Evaluation → Evaluation)
    (pval : Move → Evaluation) (alpha : Evaluation) :
    ∀ (l : List Move) (beta : Evaluation)
      (best bestP : Option (Move × Evaluation)),
      Evaluation.le alpha beta →
      (∀ m ∈ l, ∀ a b, Evaluation.le a b → WindowSound (eval m a b) (pval m) a b) →
      AccumRelB beta best bestP →
      ResultRel alpha beta (searchLoop PieceColor.Black eval l best alpha beta)
        (plainLoop PieceColor.Black pval l bestP) := by
  intro l
  induction l with
  | nil =>
    intro beta best bestP hab hH hacc
    simp only [searchLoop, plainLoop]
    cases best with
    | none =>
      cases bestP with
      | none => trivial
      | some prP => obtain ⟨mvP, vP⟩ := prP; exact hacc.elim
    | some pr =>
      obtain ⟨mv, v⟩ := pr
      cases bestP with
      | none => exact hacc.elim
      | some prP =>
        obtain ⟨mvP, vP⟩ := prP
        obtain ⟨hbv, hvp, hsync⟩ := hacc
        refine ⟨fun hlow => ?_, fun _ h2 => hsync (cmp_eq_of_le_le h2 hbv),
          fun _ => hvp⟩
        exfalso
        have h1 := eval_le_trans hab hbv
        rw [le_iff] at h1
        rw [lt_iff] at hlow
        omega
  | cons hd tl ih =>
    intro beta best bestP hab hH hacc
    obtain ⟨hS1, hS2, hS3⟩ := hH hd (List.mem_cons_self _ _) alpha beta hab
    have hHtl : ∀ m ∈ tl, ∀ a b, Evaluation.le a b →
        WindowSound (eval m a b) (pval m) a b :=
      fun m hm => hH m (List.mem_cons_of_mem _ hm)
    simp only [searchLoop, plainLoop, strictFor]
    by_cases hbr : Evaluation.ltb (eval hd alpha beta) alpha
    · -- alpha cutoff: the pruned loop stops with the breaking child's value,
      -- which the plain final value dominates from below.
      rw [if_pos hbr]
      have hbe : Evaluation.lt (eval hd alpha beta) alpha := (ltb_iff _ _).mp hbr
      have hemP : Evaluation.le (pval hd) (eval hd alpha beta) := hS1 hbe
      have hgoal : ∀ (mq : Move) (vq : Evaluation),
          Evaluation.le vq (eval hd alpha beta) →
          ResultRel alpha beta (some (hd, eval hd alpha beta))
            (plainLoop PieceColor.Black pval tl (some (mq, vq))) := by
        intro mq vq hqe
        obtain ⟨mf, vf, hres, hle⟩ := plainLoopB_le pval tl mq vq
        rw [hres]
        refine ⟨fun _ => eval_le_trans hle hqe, fun h1 _ => ?_, fun hhigh => ?_⟩
        · exfalso
          rw [le_iff] at h1
          rw [lt_iff] at hbe
          omega
        · exfalso
          rw [lt_iff] at hhigh hbe
          rw [le_iff] at hab
          omega
      cases best with
      | none =>
        cases bestP with
        | none =>
          simp only [updateBest]
          exact hgoal hd (pval hd) hemP
        | some prP => obtain ⟨mvP, vP⟩ := prP; exact hacc.elim
      | some pr =>
        obtain ⟨mv, v⟩ := pr
        cases bestP with
        | none => exact hacc.elim
        | some prP =>
          obtain ⟨mP₀, vP⟩ := prP
          obtain ⟨hbv, hvp, hsync⟩ := hacc
          have hltv : Evaluation.ltb (eval hd alpha beta) v = true := by
            rw [ltb_iff]
            have h1 := eval_le_trans hab hbv
            rw [le_iff] at h1
            rw [lt_iff] at hbe ⊢
            omega
          simp only [updateBest]
          rw [if_pos hltv]
          by_cases hplt : Evaluation.ltb (pval hd) vP
          · rw [if_pos hplt]
            exact hgoal hd (pval hd) hemP
          · rw [if_neg hplt]
            exact hgoal mP₀ vP (eval_le_trans (ltb_false_of_not hplt) hemP)
    · -- no cutoff: step both accumulators and recurse.
      rw [if_neg hbr]
      have hbe : Evaluation.le alpha (eval hd alpha beta) := ltb_false_of_not hbr
      have hab' : Evaluation.le alpha
          (if Evaluation.ltb (eval hd alpha beta) beta = true then eval hd alpha beta
            else beta) := by
        split_ifs with h
        · exact hbe
        · exact hab
      have hlebeta : Evaluation.le
          (if Evaluation.ltb (eval hd alpha beta) beta = true then eval hd alpha beta
            else beta) beta := by
        split_ifs with h
        · exact eval_le_of_lt ((ltb_iff _ _).mp h)
        · exact eval_le_refl _
      have hF : (if Evaluation.ltb (eval hd alpha beta) beta = true
            then eval hd alpha beta else beta) = beta ∨
          ∀ mv vF, searchLoop PieceColor.Black eval tl (some (hd, eval hd alpha beta))
            alpha (if Evaluation.ltb (eval hd alpha beta) beta = true
              then eval hd alpha beta else beta) = some (mv, vF) →
            Evaluation.le vF (if Evaluation.ltb (eval hd alpha beta) beta = true
              then eval hd alpha beta else beta) := by
        by_cases hra : Evaluation.ltb (eval hd alpha beta) beta
        · right
          intro mv vF hvF
          obtain ⟨mf, vf, hres, hge⟩ := searchLoopB_le eval tl hd (eval hd alpha beta)
            alpha (if Evaluation.ltb (eval hd alpha beta) beta = true
              then eval hd alpha beta else beta)
          rw [hres] at hvF
          obtain ⟨_, hvv⟩ := Prod.mk.injEq .. ▸ Option.some_injective _ hvF
          subst hvv
          rw [if_pos hra]
          exact hge
        · left
          rw [if_neg hra]
      by_cases hhigh : Evaluation.lt beta (eval hd alpha beta)
      · -- fail-high child: `beta` does not move.
        have hbeta : (if Evaluation.ltb (eval hd alpha beta) beta = true
            then eval hd alpha beta else beta) = beta := by
          rw [if_neg]
          rw [ltb_iff, not_lt_iff_le]
          exact eval_le_of_lt hhigh
        rw [hbeta]
        have hmPe : Evaluation.le (eval hd alpha beta) (pval hd) := hS3 hhigh
        cases best with
        | none =>
          cases bestP with
          | none =>
            simp only [updateBest]
            refine ih _ _ _ hab hHtl ⟨eval_le_of_lt hhigh, hmPe, fun hq => ?_⟩
            exfalso
            rw [cmp_eq_iff] at hq
            rw [lt_iff] at hhigh
            omega
          | some prP => obtain ⟨mvP, vP⟩ := prP; exact hacc.elim
        | some pr =>
          obtain ⟨mv, v⟩ := pr
          cases bestP with
          | none => exact hacc.elim
          | some prP =>
            obtain ⟨mP₀, vP⟩ := prP
            obtain ⟨hbv, hvp, hsync⟩ := hacc
            simp only [updateBest]
            by_cases hlt : Evaluation.ltb (eval hd alpha beta) v
            · rw [if_pos hlt]
              have hve : Evaluation.lt (eval hd alpha beta) v := (ltb_iff _ _).mp hlt
              by_cases hplt : Evaluation.ltb (pval hd) vP
              · rw [if_pos hplt]
                refine ih _ _ _ hab hHtl ⟨eval_le_of_lt hhigh, hmPe, fun hc => ?_⟩
                exfalso
                rw [cmp_eq_iff] at hc
                rw [lt_iff] at hhigh
                omega
              · rw [if_neg hplt]
                refine ih _ _ _ hab hHtl ⟨eval_le_of_lt hhigh,
                  eval_le_trans (eval_le_of_lt hve) hvp, fun hc => ?_⟩
                exfalso
                rw [cmp_eq_iff] at hc
                rw [lt_iff] at hhigh
                omega
            · rw [if_neg hlt]
              have hev : Evaluation.le v (eval hd alpha beta) := ltb_false_of_not hlt
              by_cases hplt : Evaluation.ltb (pval hd) vP
              · rw [if_pos hplt]
                refine ih _ _ _ hab hHtl ⟨hbv, eval_le_trans hev hmPe, fun hc => ?_⟩
                -- `v` compares equal to `beta` while the child fails high, so
                -- the plain best `vP = v` cannot be undercut by
                -- `pval hd ≥ e > beta`.
                exfalso
                have hvPv := hsync hc
                subst hvPv
                have hplt2 := (ltb_iff _ _).mp hplt
                rw [lt_iff] at hplt2 hhigh
                rw [le_iff] at hmPe
                rw [cmp_eq_iff] at hc
                omega
              · rw [if_neg hplt]
                exact ih _ _ _ hab hHtl ⟨hbv, hvp, hsync⟩
      · -- in-window child: the plain child value is literally the pruned one,
        -- and the two accumulators stay in lockstep.
        have hae : Evaluation.le (eval hd alpha beta) beta := (not_lt_iff_le _ _).mp hhigh
        have hlit : pval hd = eval hd alpha beta := hS2 hbe hae
        have hbetaR1 : Evaluation.le
            (if Evaluation.ltb (eval hd alpha beta) beta = true
              then eval hd alpha beta else beta) (eval hd alpha beta) := by
          split_ifs with h
          · exact eval_le_refl _
          · exact ltb_false_of_not h
        have haccstep : AccumRelB
            (if Evaluation.ltb (eval hd alpha beta) beta = true
              then eval hd alpha beta else beta)
            (some (hd, eval hd alpha beta)) (some (hd, pval hd)) :=
          ⟨hbetaR1, hlit ▸ eval_le_refl _, fun _ => hlit⟩
        cases best with
        | none =>
          cases bestP with
          | none =>
            simp only [updateBest]
            exact resultRel_raise_beta hlebeta hF (ih _ _ _ hab' hHtl haccstep)
          | some prP => obtain ⟨mvP, vP⟩ := prP; exact hacc.elim
        | some pr =>
          obtain ⟨mv, v⟩ := pr
          cases bestP with
          | none => exact hacc.elim
          | some prP =>
            obtain ⟨mP₀, vP⟩ := prP
            obtain ⟨hbv, hvp, hsync⟩ := hacc
            simp only [updateBest]
            by_cases hlt : Evaluation.ltb (eval hd alpha beta) v
            · rw [if_pos hlt]
              have hve : Evaluation.lt (eval hd alpha beta) v := (ltb_iff _ _).mp hlt
              have hpBP : Evaluation.ltb (pval hd) vP = true := by
                rw [hlit, ltb_iff]
                exact eval_lt_of_lt_of_le hve hvp
              rw [if_pos hpBP]
              exact resultRel_raise_beta hlebeta hF (ih _ _ _ hab' hHtl haccstep)
            · rw [if_neg hlt]
              have hev : Evaluation.le v (eval hd alpha beta) := ltb_false_of_not hlt
              -- beta ≥ e ≥ v ≥ beta: everything compares equal here.
              have hsyncv : vP = v :=
                hsync (cmp_eq_of_le_le (eval_le_trans hev hae) hbv)
              have hpBP : ¬ Evaluation.ltb (pval hd) vP = true := by
                rw [hlit, hsyncv, ltb_iff, not_lt_iff_le]
                exact hev
              rw [if_neg hpBP]
              have hbeta : (if Evaluation.ltb (eval hd alpha beta) beta = true
                  then eval hd alpha beta else beta) = beta := by
                rw [if_neg]
                rw [ltb_iff, not_lt_iff_le]
                exact eval_le_trans hbv hev
              rw [hbeta]
              exact ih _ _ _ hab hHtl ⟨hbv, hvp, hsync⟩

/-- Unfolding `minimax` at depth zero (children valued by `estimate`). -/
theorem minimax_zero (dbg : Bool) (g : Game) (alpha beta : Evaluation) :
    minimax dbg 0 g alpha beta =
      searchLoop g.turn
        (fun m _ _ =>
          match (applyMove g m).status dbg with
          | some outcome => Evaluation.Outcome outcome
          | none => Evaluation.Estimate (estimate (applyMove g m)))
        (candidates dbg g) none alpha beta := by
  rw [minimax]

/-- Unfolding `minimax` at a successor depth (children valued recursively). -/
theorem minimax_succ (dbg : Bool) (depth' : Nat) (g : Game)
    (alpha beta : Evaluation) :
    minimax dbg (depth' + 1) g alpha beta =
      searchLoop g.turn
        (fun m alpha' beta' =>
          match (applyMove g m).status dbg with
          | some outcome => Evaluation.Outcome outcome
          | none =>
            match minimax dbg depth' (applyMove g m) alpha' beta' with
            | some r => r.2
            | none => Evaluation.Estimate 0)
        (candidates dbg g) none alpha beta := by
  rw [minimax]

/-- Unfolding `plainMinimax` at depth zero. -/
theorem plainMinimax_zero (dbg : Bool) (g : Game) :
    plainMinimax dbg 0 g =
      plainLoop g.turn
        (fun m =>
          match (applyMove g m).status dbg with
          | some outcome => Evaluation.Outcome outcome
          | none => Evaluation.Estimate (estimate (applyMove g m)))
        (candidates dbg g) none := by
  rw [plainMinimax]

/-- Unfolding `plainMinimax` at a successor depth. -/
theorem plainMinimax_succ (dbg : Bool) (depth' : Nat) (g : Game) :
    plainMinimax dbg (depth' + 1) g =
      plainLoop g.turn
        (fun m =>
          match (applyMove g m).status dbg with
          | some outcome => Evaluation.Outcome outcome
          | none =>
            match plainMinimax dbg depth' (applyMove g m) with
            | some r => r.2
            | none => Evaluation.Estimate 0)
        (candidates dbg g) none := by
  rw [plainMinimax]

/-- Depth induction: at every window `alpha ≤ beta`, the pruned `minimax` and
the plain minimax on the same node fail together or return values related by
the fail-soft window trichotomy. -/
theorem minimax_sound (dbg : Bool) :
    ∀ (depth : Nat) (g : Game) (alpha beta : Evaluation),
      Evaluation.le alpha beta →
      ResultRel alpha beta (minimax dbg depth g alpha beta)
        (plainMinimax dbg depth g) := by
  intro depth
  induction depth with
  | zero =>
    intro g alpha beta hab
    rw [minimax_zero, plainMinimax_zero]
    have hH : ∀ m ∈ candidates dbg g, ∀ a b, Evaluation.le a b →
        WindowSound
          (match (applyMove g m).status dbg with
            | some outcome => Evaluation.Outcome outcome
            | none => Evaluation.Estimate (estimate (applyMove g m)))
          (match (applyMove g m).status dbg with
            | some outcome => Evaluation.Outcome outcome
            | none => Evaluation.Estimate (estimate (applyMove g m))) a b := by
      intro m hm a b hab2
      cases hst : (applyMove g m).status dbg with
      | some o => exact windowSound_refl _ _ _
      | none => exact windowSound_refl _ _ _
    cases g.turn with
    | White => exact searchLoopW_sound _ _ beta _ alpha none none hab hH trivial
    | Black => exact searchLoopB_sound _ _ alpha _ beta none none hab hH trivial
  | succ depth' ih =>
    intro g alpha beta hab
    rw [minimax_succ, plainMinimax_succ]
    have hH : ∀ m ∈ candidates dbg g, ∀ a b, Evaluation.le a b →
        WindowSound
          (match (applyMove g m).status dbg with
            | some outcome => Evaluation.Outcome outcome
            | none =>
              match minimax dbg depth' (applyMove g m) a b with
              | some r => r.2
              | none => Evaluation.Estimate 0)
          (match (applyMove g m).status dbg with
            | some outcome => Evaluation.Outcome outcome
            | none =>
              match plainMinimax dbg depth' (applyMove g m) with
              | some r => r.2
              | none => Evaluation.Estimate 0) a b := by
      intro m hm a b hab2
      cases hst : (applyMove g m).status dbg with
      | some o => exact windowSound_refl _ _ _
      | none =>
        have hrel := ih (applyMove g m) a b hab2
        cases hF : minimax dbg depth' (applyMove g m) a b with
        | none =>
          cases hP : plainMinimax dbg depth' (applyMove g m) with
          | none => exact windowSound_refl _ _ _
          | some prP =>
            obtain ⟨mvP, vP⟩ := prP
            rw [hF, hP] at hrel
            exact hrel.elim
        | some pr =>
          obtain ⟨mv, v⟩ := pr
          cases hP : plainMinimax dbg depth' (applyMove g m) with
          | none =>
            rw [hF, hP] at hrel
            exact hrel.elim
          | some prP =>
            obtain ⟨mvP, vP⟩ := prP
            rw [hF, hP] at hrel
            exact hrel
    cases g.turn with
    | White => exact searchLoopW_sound _ _ beta _ alpha none none hab hH trivial
    | Black => exact searchLoopB_sound _ _ alpha _ beta none none hab hH trivial

/-- C2: on every game with at least one candidate move and at every depth, the
alpha-beta `minimax` called at the root window `(MIN, MAX)` (alpha =
Win(Black), beta = Win(White)) returns the same evaluation as the plain
(unpruned) minimax on the same game and depth. -/
theorem c2_alpha_beta_equals_plain_minimax (dbg : Bool) (depth : Nat) (g : Game)
    (hne : candidates dbg g ≠ []) :
    ∃ mv mvP e,
      minimax dbg depth g Evaluation.MIN Evaluation.MAX = some (mv, e) ∧
        plainMinimax dbg depth g = some (mvP, e) := by
  have hrel := minimax_sound dbg depth g Evaluation.MIN Evaluation.MAX
    (eval_MIN_le _)
  cases hF : minimax dbg depth g Evaluation.MIN Evaluation.MAX with
  | none =>
    exfalso
    unfold minimax at hF
    exact hne (searchLoop_none _ _ _ _ _ _ hF).1
  | some pr =>
    obtain ⟨mv, e⟩ := pr
    cases hP : plainMinimax dbg depth g with
    | none =>
      rw [hF, hP] at hrel
      exact hrel.elim
    | some prP =>
      obtain ⟨mvP, eP⟩ := prP
      rw [hF, hP] at hrel
      obtain ⟨h1, h2, h3⟩ := hrel
      have he : eP = e := h2 (eval_MIN_le _) (eval_le_MAX _)
      exact ⟨mv, mvP, e, rfl, by rw [he]⟩

/-- Witness for C2 at a concrete input: from the initial position at depth 1,
the pruned and plain searches return the same evaluation. -/
theorem c2_alpha_beta_equals_plain_minimax_witness :
    ∃ mv mvP e,
      minimax true 1 Game.new Evaluation.MIN Evaluation.MAX = some (mv, e) ∧
        plainMinimax true 1 Game.new = some (mvP, e) :=
  c2_alpha_beta_equals_plain_minimax true 1 Game.new (by decide)
